import Mathlib

/-
  Verification of the fdt item module (src/fdt/item.py): the device-tree
  item data model (BaseItem / Property / PropStrings / PropWords / PropBytes /
  Node), its equality, merge and append operations, and the binary (DTB)
  serializer with its shared string table.

  Shallow embedding conventions:
  * Python objects become immutable Lean values; mutation of a node becomes a
    function returning the updated node.
  * The _parent back-reference of an item is modelled by the list of ancestor
    NAMES from the immediate parent upward (field pchain).  This is exactly
    the information the path computation reads: it walks node = self.parent,
    node = node.parent, ... looking only at node.name.
  * A Python class is modelled by a tag (PClass); the data attribute is a
    separate field (PData) because Node.merge assigns .data across classes
    without re-validating the variant.
  * Byte strings become List Nat, the string table becomes List Char.
  * assert failures / raised exceptions become Option / error results.
-/

namespace Fdt

/-- Python string.printable membership: the graphic ASCII range 0x20..0x7e
    (digits, letters, punctuation, space) plus the whitespace characters
    TAB, LF, VT, FF, CR (codes 9..13). -/
def pyPrintable (c : Char) : Bool :=
  decide ((0x20 ≤ c.toNat ∧ c.toNat ≤ 0x7e) ∨ (9 ≤ c.toNat ∧ c.toNat ≤ 13))

/-- BaseItem.__init__ name check: assert all(c in printable for c in name).
    Note the assert is vacuously true for the empty string. -/
def checkItemName (name : String) : Bool :=
  name.toList.all pyPrintable

/-- The concrete Python class of a property object: Property (the empty
    property), PropStrings, PropWords or PropBytes. -/
inductive PClass where
  | base
  | strings
  | words
  | bytes
deriving DecidableEq, Repr

/-- A Python value stored in a property's data sequence: str or int
    (words and bytes are both Python ints). -/
inductive PyVal where
  | str (v : String)
  | int (v : Nat)
deriving DecidableEq, Repr

/-- The data attribute of a property object.  none models the base
    Property class, which has no data attribute at all. -/
inductive PData where
  | none
  | strs (l : List String)
  | wrds (l : List Nat)
  | byts (l : List Nat)
deriving DecidableEq, Repr

/-- A property object.  wordSize is the word_size attribute of PropWords
    (meaningless for the other classes).  pchain models the _parent
    back-reference as the list of ancestor names, closest parent first. -/
structure PropObj where
  name : String
  cls : PClass
  wordSize : Nat
  data : PData
  pchain : List String
deriving DecidableEq, Repr

/-- A property object is well formed when its data attribute has the shape
    its class creates: base properties have no data, PropStrings holds
    strings, PropWords and PropBytes hold integers. -/
def PropWF (p : PropObj) : Bool :=
  match p.cls, p.data with
  | PClass.base, PData.none => true
  | PClass.strings, PData.strs _ => true
  | PClass.words, PData.wrds _ => true
  | PClass.bytes, PData.byts _ => true
  | _, _ => false

/-- len(self.data): the length of the data sequence (0 for a missing
    data attribute). -/
def pdataLen : PData → Nat
  | PData.none => 0
  | PData.strs l => l.length
  | PData.wrds l => l.length
  | PData.byts l => l.length

/-- self.data[i] as a Python value. -/
def pelem : PData → Nat → Option PyVal
  | PData.none, _ => Option.none
  | PData.strs l, i => (l.get? i).map PyVal.str
  | PData.wrds l, i => (l.get? i).map PyVal.int
  | PData.byts l, i => (l.get? i).map PyVal.int

/-- The __eq__ method run with self as receiver; which body runs is chosen
    by self's class:
    * Property.__eq__ checks isinstance(prop, Property) (true for all four
      property classes) and compares names only;
    * PropStrings/PropWords/PropBytes.__eq__ check isinstance against their
      own class, then compare name, length and the elements in order. -/
def eqMethod (self other : PropObj) : Bool :=
  match self.cls with
  | PClass.base => decide (self.name = other.name)
  | PClass.strings =>
      decide (other.cls = PClass.strings) && decide (self.name = other.name) &&
      decide (pdataLen self.data = pdataLen other.data) &&
      (List.range (pdataLen self.data)).all
        (fun i => decide (pelem self.data i = pelem other.data i))
  | PClass.words =>
      decide (other.cls = PClass.words) && decide (self.name = other.name) &&
      decide (pdataLen self.data = pdataLen other.data) &&
      (List.range (pdataLen self.data)).all
        (fun i => decide (pelem self.data i = pelem other.data i))
  | PClass.bytes =>
      decide (other.cls = PClass.bytes) && decide (self.name = other.name) &&
      decide (pdataLen self.data = pdataLen other.data) &&
      (List.range (pdataLen self.data)).all
        (fun i => decide (pelem self.data i = pelem other.data i))

/-- The Python expression a == b on two property objects.  Python's operator
    dispatch tries the right operand's __eq__ first when the right operand's
    class is a proper subclass of the left operand's class and overrides
    __eq__ (PropStrings, PropWords and PropBytes are proper subclasses of
    Property and each overrides __eq__); otherwise the left operand's __eq__
    runs.  No branch returns NotImplemented, so no further fallback occurs. -/
def pyEq (a b : PropObj) : Bool :=
  if a.cls = PClass.base ∧ b.cls ≠ PClass.base then eqMethod b a else eqMethod a b

/-- The copy() method of each property class: a fresh object with the same
    name (and data for the subclasses), no parent.  Property.copy() returns
    Property(self.name), which has no data attribute. -/
def copyProp (p : PropObj) : PropObj :=
  match p.cls with
  | PClass.base => { p with data := PData.none, pchain := [] }
  | _ => { p with pchain := [] }

/-- A node: name, parent-name chain (see module comment), ordered property
    list and ordered child list. -/
inductive Node where
  | mk (name : String) (pchain : List String) (props : List PropObj) (nodes : List Node)

def Node.name : Node → String
  | Node.mk n _ _ _ => n

def Node.pchain : Node → List String
  | Node.mk _ c _ _ => c

def Node.props : Node → List PropObj
  | Node.mk _ _ ps _ => ps

def Node.nodes : Node → List Node
  | Node.mk _ _ _ ns => ns

def Node.setProps : Node → List PropObj → Node
  | Node.mk n c _ ns, ps => Node.mk n c ps ns

def Node.setNodes : Node → List Node → Node
  | Node.mk n c ps _, ns => Node.mk n c ps ns

/-- The while loop of BaseItem.path: walk the parent chain collecting names,
    stopping at a node named "/" (the root) or at the end of the chain. -/
def pathNames : List String → List String
  | [] => []
  | n :: rest => if n = "/" then [] else n :: pathNames rest

/-- BaseItem.path: '/' + '/'.join(collected names reversed).  The walk starts
    at self.parent, so the item's own name is never part of the result. -/
def itemPath (parents : List String) : String :=
  "/" ++ String.intercalate "/" (pathNames parents).reverse

/-- Node(name) under the BaseItem.__init__ assert: fails (None) when the name
    check fails, else a fresh detached node. -/
def mkNodeChecked (name : String) : Option Node :=
  if checkItemName name then some (Node.mk name [] [] []) else Option.none

/-- Property(name) (the empty property) under the BaseItem.__init__ assert. -/
def mkPropertyChecked (name : String) : Option PropObj :=
  if checkItemName name then
    some { name := name, cls := PClass.base, wordSize := 32,
           data := PData.none, pchain := [] }
  else Option.none

/-- Node.merge's local get_property_index: index of the first property with
    the given name. -/
def getPropIdx (props : List PropObj) (n : String) : Option Nat :=
  match props with
  | [] => Option.none
  | q :: rest => if q.name = n then some 0 else (getPropIdx rest n).map (· + 1)

/-- Node.merge's local get_subnode_index: index of the first child with the
    given name. -/
def getNodeIdx (nodes : List Node) (n : String) : Option Nat :=
  match nodes with
  | [] => Option.none
  | q :: rest => if q.name = n then some 0 else (getNodeIdx rest n).map (· + 1)

/-- Node.get_property: linear scan, first match, None when absent. -/
def Node.getProperty? (nd : Node) (n : String) : Option PropObj :=
  nd.props.find? (fun p => p.name == n)

/-- Node.get_subnode: linear scan, first match, None when absent. -/
def Node.getSubnode? (nd : Node) (n : String) : Option Node :=
  nd.nodes.find? (fun c => c.name == n)

/-- An argument to Node.append: a property or a node. -/
inductive Item where
  | prop (p : PropObj)
  | node (n : Node)

/-- The exceptions Node.append can raise: a name collision ("... already
    exists") or appending a node to itself. -/
inductive AppendErr where
  | duplicateName
  | selfAppend
deriving DecidableEq, Repr

/-- Structural equality of nodes, used only to model the Python identity test
    'item is self' in Node.append (in the immutable value model a node can
    only be the same object as itself, which structural equality
    over-approximates; no verified claim depends on this branch). -/
def nodeBeq : Node → Node → Bool
  | Node.mk n1 c1 pr1 ns1, Node.mk n2 c2 pr2 ns2 =>
    n1 == n2 && decide (c1 = c2) && decide (pr1 = pr2) &&
    ns1.length == ns2.length &&
    ((ns1.zip ns2).attach.all fun x =>
      match x with
      | ⟨(a, b), _⟩ => nodeBeq a b)
termination_by a _ => sizeOf a
decreasing_by
  simp_wf
  rename_i hmem
  have h := List.of_mem_zip hmem
  have h1 := List.sizeOf_lt_of_mem h.1
  omega

/-- Node.append.  Checks run before any mutation, so on error the node is
    returned unchanged.  On success the appended item's parent is set to
    self (its pchain becomes self.name :: self.pchain) and it is appended
    to the corresponding sequence. -/
def Node.appendS (self : Node) (item : Item) : Option AppendErr × Node :=
  match item with
  | Item.prop p =>
      if (self.getProperty? p.name).isSome then (some AppendErr.duplicateName, self)
      else (Option.none,
            self.setProps (self.props ++ [{ p with pchain := self.name :: self.pchain }]))
  | Item.node m =>
      if (self.getSubnode? m.name).isSome then (some AppendErr.duplicateName, self)
      else if nodeBeq m self then (some AppendErr.selfAppend, self)
      else (Option.none,
            self.setNodes
              (self.nodes ++
               [match m with
                | Node.mk n _ ps ns => Node.mk n (self.name :: self.pchain) ps ns]))

/-- Node.__eq__ on two nodes: same name, same property count and child count,
    every property of self found in node.props (by the == of the elements)
    and every child of self found in node.nodes (recursively). -/
def nodeEqB : Node → Node → Bool
  | Node.mk n1 _ pr1 ns1, Node.mk n2 _ pr2 ns2 =>
    n1 == n2 && pr1.length == pr2.length && ns1.length == ns2.length &&
    pr1.all (fun p => pr2.any (fun q => pyEq q p)) &&
    (ns1.attach.all fun c => ns2.attach.any fun d => nodeEqB d.1 c.1)
termination_by a b => sizeOf a + sizeOf b
decreasing_by
  simp_wf
  have h1 := List.sizeOf_lt_of_mem c.2
  have h2 := List.sizeOf_lt_of_mem d.2
  omega

/-- The Python expression a == b where a property or a node may stand on
    either side.  Node.__eq__ raises ValueError (modelled as none) when the
    other operand is not a Node; the property classes' __eq__ returns False
    for a non-property operand (the isinstance check fails).  Neither Node
    nor the property classes is a subclass of the other, so the left
    operand's method always runs. -/
def pyEqItem : Item → Item → Option Bool
  | Item.node a, Item.node b => some (nodeEqB a b)
  | Item.node _, Item.prop _ => Option.none
  | Item.prop a, Item.prop b => some (pyEq a b)
  | Item.prop _, Item.node _ => some false

/-- Replace the element at an index of a list (positions otherwise kept). -/
def modifyAt (l : List PropObj) (i : Nat) (f : PropObj → PropObj) : List PropObj :=
  match l, i with
  | [], _ => []
  | q :: rest, 0 => f q :: rest
  | q :: rest, Nat.succ i => q :: modifyAt rest i f

def modifyNodeAt (l : List Node) (i : Nat) (f : Node → Node) : List Node :=
  match l, i with
  | [], _ => []
  | q :: rest, 0 => f q :: rest
  | q :: rest, Nat.succ i => q :: modifyNodeAt rest i f

/-- One iteration of the property loop of Node.merge:
    * name absent: self.append(prop.copy()) (cannot raise here, because the
      index lookup just failed for the same name);
    * an equal property already present (prop in self._props): skip;
    * replace: self._props[index].data = copy(prop.data) — only the data
      attribute is assigned, name, class and word size are untouched;
    * otherwise: leave self untouched. -/
def mergePropStep (replace : Bool) (self : Node) (p : PropObj) : Node :=
  match getPropIdx self.props p.name with
  | Option.none => (self.appendS (Item.prop (copyProp p))).2
  | some i =>
      if self.props.any (fun e => pyEq e p) then self
      else if replace then
        self.setProps (modifyAt self.props i (fun q => { q with data := p.data }))
      else self

/-- The action of one property-loop iteration of Node.merge on the property
    list alone (self's name and parent chain, which the iteration reads but
    never changes, are passed explicitly).  Proved below to agree with
    mergePropStep. -/
def stepP (r : Bool) (nm : String) (ch : List String)
    (props : List PropObj) (p : PropObj) : List PropObj :=
  match getPropIdx props p.name with
  | Option.none => props ++ [{ copyProp p with pchain := nm :: ch }]
  | some i =>
      if props.any (fun e => pyEq e p) then props
      else if r then modifyAt props i (fun q => { q with data := p.data })
      else props

mutual

/-- Node.merge: fold the property loop over other's properties, then the
    subnode loop over other's children. -/
def Node.merge (self other : Node) (replace : Bool) : Node :=
  match other with
  | Node.mk _ _ oprops onodes =>
      mergeNodesGo (oprops.foldl (mergePropStep replace) self) onodes replace

/-- The subnode loop of Node.merge:
    * name absent: self._nodes.append(deepcopy(sub_node)) — note the direct
      list append: unlike the property branch this does not go through
      Node.append, so no parent is assigned; deepcopy of a value is the value
      itself, its pchain (the copied parent chain) included;
    * an equal subtree already present: skip;
    * otherwise recurse into the matching child with the same replace flag. -/
def mergeNodesGo (self : Node) (subs : List Node) (replace : Bool) : Node :=
  match subs with
  | [] => self
  | c :: rest =>
      let s' :=
        match getNodeIdx self.nodes c.name with
        | Option.none => self.setNodes (self.nodes ++ [c])
        | some i =>
            if self.nodes.any (fun e => nodeEqB e c) then self
            else self.setNodes (modifyNodeAt self.nodes i (fun e => Node.merge e c replace))
      mergeNodesGo s' rest replace

end

/-- The body of one subnode-loop iteration of Node.merge (the update
    yielding s' above), as a standalone function; mergeNodesGo is proved
    below to be its sequential fold.  Used to reason about the subnode loop
    step by step. -/
def nodeStepN (r : Bool) (s : Node) (c : Node) : Node :=
  match getNodeIdx s.nodes c.name with
  | Option.none => s.setNodes (s.nodes ++ [c])
  | some i =>
      if s.nodes.any (fun e => nodeEqB e c) then s
      else s.setNodes (modifyNodeAt s.nodes i (fun e => Node.merge e c r))

/-! ## Binary (DTB) serialization -/

/-- The NUL character terminating every string-table entry. -/
def nulChar : Char := Char.ofNat 0

/-- Does pat occur at the very start of t? -/
def headMatch : List Char → List Char → Bool
  | [], _ => true
  | _ :: _, [] => false
  | a :: p, b :: t => a == b && headMatch p t

/-- Python str.find: index of the first occurrence of pat as a contiguous
    substring of t, None when absent (Python returns -1). -/
def listFind : List Char → List Char → Option Nat
  | [], pat => if headMatch pat [] then some 0 else Option.none
  | c :: t, pat =>
      if headMatch pat (c :: t) then some 0
      else (listFind t pat).map (· + 1)

/-- The string-table step shared by every property's to_dtb:
      strpos = strings.find(name + chr(0));
      if strpos < 0: strpos = len(strings); strings += name + chr(0). -/
def lookupOrInsert (t : List Char) (name : List Char) : Nat × List Char :=
  match listFind t (name ++ [nulChar]) with
  | some p => (p, t)
  | Option.none => (t.length, t ++ name ++ [nulChar])

/-- The string table starts empty and only whole NUL-terminated entries are
    ever appended, so it is empty or ends with a NUL. -/
def tableWF (t : List Char) : Prop :=
  t = [] ∨ t.getLast? = some nulChar

/-- pack('>I', n): a 32-bit big-endian word as four bytes. -/
def u32be (n : Nat) : List Nat :=
  [n / 16777216 % 256, n / 65536 % 256, n / 256 % 256, n % 256]

/-- str.encode('ascii') as a byte list (character codes). -/
def asciiBytes (s : String) : List Nat :=
  s.toList.map Char.toNat

/-- Modelled from the spec: the structure-block tag constants DTB_BEGIN_NODE,
    DTB_END_NODE and DTB_PROP are imported from the excluded header module
    (fdt/head.py), which frames each record with 32-bit big-endian tags. -/
def DTB_BEGIN_NODE : Nat := 1

def DTB_END_NODE : Nat := 2

def DTB_PROP : Nat := 3

/-- Property.to_dtb (the empty property): look up / insert the name in the
    string table, advance pos by 12, emit tag, zero length, name offset. -/
def propertyToDtb (name : String) (strings : List Char) (pos : Nat) :
    List Nat × List Char × Nat :=
  let r := lookupOrInsert strings name.toList
  (u32be DTB_PROP ++ u32be 0 ++ u32be r.1, r.2, pos + 12)

/-- The raw PropStrings payload: each string's ASCII bytes followed by one
    zero terminator, in order. -/
def rawStringsPayload (data : List String) : List Nat :=
  (data.map (fun s => asciiBytes s ++ [0])).flatten

/-- PropStrings.to_dtb: build the raw payload and record its length; for
    version < 16 and a misaligned payload start (pos+12 not 8-byte aligned)
    prepend zero padding; append zero padding up to a 4-byte multiple of the
    RAW length; look up / insert the name; emit tag, the RAW (pre-padding)
    length, name offset, then the padded payload. -/
def propStringsToDtb (name : String) (data : List String) (strings : List Char)
    (pos version : Nat) : List Nat × List Char × Nat :=
  let blob0 := rawStringsPayload data
  let blobLen := blob0.length
  let blob1 :=
    if version < 16 ∧ (pos + 12) % 8 ≠ 0 then
      List.replicate (8 - (pos + 12) % 8) 0 ++ blob0
    else blob0
  let blob2 :=
    if blobLen % 4 ≠ 0 then blob1 ++ List.replicate (4 - blobLen % 4) 0
    else blob1
  let r := lookupOrInsert strings name.toList
  let blob3 := u32be DTB_PROP ++ u32be blobLen ++ u32be r.1 ++ blob2
  (blob3, r.2, pos + blob3.length)

/-- PropWords.to_dtb: tag, 4*count, name offset, each word big-endian. -/
def propWordsToDtb (name : String) (data : List Nat) (strings : List Char)
    (pos : Nat) : List Nat × List Char × Nat :=
  let r := lookupOrInsert strings name.toList
  let blob := u32be DTB_PROP ++ u32be (data.length * 4) ++ u32be r.1 ++
              (data.map u32be).flatten
  (blob, r.2, pos + blob.length)

/-- PropBytes.to_dtb: tag, raw byte count, name offset, the bytes, then zero
    padding of the whole record up to a 4-byte multiple. -/
def propBytesToDtb (name : String) (data : List Nat) (strings : List Char)
    (pos : Nat) : List Nat × List Char × Nat :=
  let r := lookupOrInsert strings name.toList
  let blob0 := u32be DTB_PROP ++ u32be data.length ++ u32be r.1 ++ data
  let blob :=
    if blob0.length % 4 ≠ 0 then blob0 ++ List.replicate (4 - blob0.length % 4) 0
    else blob0
  (blob, r.2, pos + blob.length)

/-- Projections of a property's data attribute as each to_dtb body reads it
    (a mismatched shape would be a Python type error; encoding is only ever
    invoked on well-formed properties). -/
def pdStrs : PData → List String
  | PData.strs l => l
  | _ => []

def pdWrds : PData → List Nat
  | PData.wrds l => l
  | _ => []

def pdByts : PData → List Nat
  | PData.byts l => l
  | _ => []

/-- Dispatch to the to_dtb of the property's class. -/
def propToDtb (p : PropObj) (strings : List Char) (pos version : Nat) :
    List Nat × List Char × Nat :=
  match p.cls with
  | PClass.base => propertyToDtb p.name strings pos
  | PClass.strings => propStringsToDtb p.name (pdStrs p.data) strings pos version
  | PClass.words => propWordsToDtb p.name (pdWrds p.data) strings pos
  | PClass.bytes => propBytesToDtb p.name (pdByts p.data) strings pos

/-- The begin-node record of Node.to_dtb: for the root (name '/') the tag
    plus an explicit zero word; otherwise the tag plus the NUL-terminated
    ASCII name; in both cases zero-padded to a 4-byte boundary. -/
def beginBlob (name : String) : List Nat :=
  let b :=
    if name = "/" then u32be DTB_BEGIN_NODE ++ u32be 0
    else u32be DTB_BEGIN_NODE ++ asciiBytes name ++ [0]
  if b.length % 4 ≠ 0 then b ++ List.replicate (4 - b.length % 4) 0 else b

/-- The property loop of Node.to_dtb: encode each property in order,
    threading the string table and position, concatenating the records. -/
def propsToDtb (ps : List PropObj) (strings : List Char) (pos version : Nat) :
    List Nat × List Char × Nat :=
  match ps with
  | [] => ([], strings, pos)
  | p :: rest =>
      let r1 := propToDtb p strings pos version
      let r2 := propsToDtb rest r1.2.1 r1.2.2 version
      (r1.1 ++ r2.1, r2.2.1, r2.2.2)

mutual

/-- Node.to_dtb: begin-node record, properties in order, children in order,
    end-node tag; the string table and byte position are threaded through
    every call. -/
def nodeToDtb (nd : Node) (strings : List Char) (pos version : Nat) :
    List Nat × List Char × Nat :=
  match nd with
  | Node.mk name _ props nodes =>
      let b := beginBlob name
      let r1 := propsToDtb props strings (pos + b.length) version
      let r2 := nodesToDtb nodes r1.2.1 r1.2.2 version
      (b ++ r1.1 ++ r2.1 ++ u32be DTB_END_NODE, r2.2.1, r2.2.2 + 4)

/-- The child loop of Node.to_dtb. -/
def nodesToDtb (ns : List Node) (strings : List Char) (pos version : Nat) :
    List Nat × List Char × Nat :=
  match ns with
  | [] => ([], strings, pos)
  | c :: rest =>
      let r1 := nodeToDtb c strings pos version
      let r2 := nodesToDtb rest r1.2.1 r1.2.2 version
      (r1.1 ++ r2.1, r2.2.1, r2.2.2)

end

mutual

/-- The property names met by the to_dtb tree walk, in walk order (each as a
    character list, the form the string table works with). -/
def Node.walkNames : Node → List (List Char)
  | Node.mk _ _ props nodes =>
      props.map (fun p => p.name.toList) ++ nodesWalkNames nodes

def nodesWalkNames : List Node → List (List Char)
  | [] => []
  | c :: rest => c.walkNames ++ nodesWalkNames rest

end

/-- The string table after a sequence of lookup-or-insert steps. -/
def tableAfter (t : List Char) (names : List (List Char)) : List Char :=
  names.foldl (fun tb n => (lookupOrInsert tb n).2) t

/-- The name offset recorded by the i-th lookup-or-insert step of a walk. -/
def offsetAt (t : List Char) (names : List (List Char)) (i : Nat) : Nat :=
  (lookupOrInsert (tableAfter t (names.take i)) (names.getD i [])).1

/-! ## Theorems -/

/-- C10: comparing a Node for equality with a value that is not a Node (here:
    a property) raises ValueError (modelled as none) rather than returning
    False, whereas comparing a property with a non-matching type (here: a
    node) returns False. -/
theorem c10_node_eq_raises (n : Node) (p : PropObj) :
    pyEqItem (Item.node n) (Item.prop p) = Option.none ∧
    pyEqItem (Item.prop p) (Item.node n) = some false :=
  ⟨rfl, rfl⟩

/-- C2, counterexample: for the item named leaf three levels deep whose
    parent chain is bus, soc, root, the computed path is "/soc/bus" — it does
    NOT include the item's own name, contradicting the claimed
    "/soc/bus/leaf". -/
theorem c2_path_cex :
    itemPath ["bus", "soc", "/"] = "/soc/bus" ∧
    itemPath ["bus", "soc", "/"] ≠ "/soc/bus/leaf" := by
  constructor
  · rfl
  · decide

/-- The path walk collects exactly the ancestor names below the root. -/
theorem pathNames_below_root (pre post : List String) (h : "/" ∉ pre) :
    pathNames (pre ++ "/" :: post) = pre := by
  induction pre with
  | nil => simp [pathNames]
  | cons n rest ih =>
      have hn : n ≠ "/" := fun he => h (he ▸ List.mem_cons_self n rest)
      have hr : "/" ∉ rest := fun hm => h (List.mem_cons_of_mem n hm)
      simp [pathNames, hn, ih hr]

/-- C2, amended: the path operation returns the root-relative slash-joined
    path of the item's PARENT chain, excluding the item's own name: an item
    whose ancestors below the root are named pre (closest parent first)
    reports "/" ++ the reversed names joined by "/" (so leaf under /soc/bus
    reports "/soc/bus"), and the root (no parent) reports "/". -/
theorem c2_path_amended (pre post : List String) (h : "/" ∉ pre) :
    itemPath (pre ++ "/" :: post) =
      "/" ++ String.intercalate "/" pre.reverse ∧
    itemPath [] = "/" := by
  constructor
  · unfold itemPath
    rw [pathNames_below_root pre post h]
  · rfl

theorem c2_path_amended_witness :
    ("/" ∉ (["bus", "soc"] : List String)) ∧
    (itemPath (["bus", "soc"] ++ "/" :: []) =
       "/" ++ String.intercalate "/" (["bus", "soc"] : List String).reverse ∧
     itemPath [] = "/") :=
  ⟨by decide, c2_path_amended ["bus", "soc"] [] (by decide)⟩

/-- C5, counterexample: constructing a node or a property with the EMPTY
    string as name succeeds — the printable-characters assert is vacuously
    true for "", so no InvalidName error is raised. -/
theorem c5_name_cex :
    (mkNodeChecked "").isSome = true ∧
    mkPropertyChecked "" =
      some { name := "", cls := PClass.base, wordSize := 32,
             data := PData.none, pchain := [] } := by
  constructor <;> rfl

/-- C5, amended: constructing an item (node or property) fails with an
    InvalidName error if and only if the given name contains a non-printable
    character; the empty name is accepted (the check is vacuous for it). -/
theorem c5_name_amended (name : String) :
    (mkNodeChecked name = Option.none ↔
       ∃ c ∈ name.toList, pyPrintable c = false) ∧
    (mkPropertyChecked name = Option.none ↔
       ∃ c ∈ name.toList, pyPrintable c = false) := by
  have key : checkItemName name = false ↔
      ∃ c ∈ name.toList, pyPrintable c = false := by
    simp [checkItemName, List.all_eq_false]
  rw [← key]
  cases hc : checkItemName name <;>
    simp [mkNodeChecked, mkPropertyChecked, hc]

/-- C3, counterexample: PropStrings("p", "a") encoded at position 0,
    version 17: the raw payload is the 2 bytes 'a', NUL; the emitted payload
    is zero-padded to 4 bytes; but the header's length field records 2 — the
    length BEFORE the trailing padding, not after it as claimed. -/
theorem c3_length_cex :
    ((propStringsToDtb "p" ["a"] [] 0 17).1.drop 4).take 4 = u32be 2 ∧
    (propStringsToDtb "p" ["a"] [] 0 17).1.length - 12 = 4 ∧
    u32be 2 ≠ u32be 4 := by
  refine ⟨?_, ?_, ?_⟩ <;> decide

/-- C3, amended: the PROP header's length field records the RAW payload
    length, measured before the version<16 pre-padding AND before the
    trailing zero-padding that rounds the payload up to a multiple of 4. -/
theorem c3_length_amended (name : String) (data : List String)
    (strings : List Char) (pos version : Nat) :
    ∃ prepad trailpad : List Nat,
      (propStringsToDtb name data strings pos version).1 =
        u32be DTB_PROP ++ u32be (rawStringsPayload data).length ++
        u32be (lookupOrInsert strings name.toList).1 ++
        (prepad ++ (rawStringsPayload data ++ trailpad)) := by
  unfold propStringsToDtb
  by_cases h1 : version < 16 ∧ (pos + 12) % 8 ≠ 0 <;>
    by_cases h2 : (rawStringsPayload data).length % 4 ≠ 0
  · exact ⟨List.replicate (8 - (pos + 12) % 8) 0,
           List.replicate (4 - (rawStringsPayload data).length % 4) 0,
           by simp [h1, h2, List.append_assoc]⟩
  · exact ⟨List.replicate (8 - (pos + 12) % 8) 0, [],
           by simp [h1, h2, List.append_assoc]⟩
  · exact ⟨[], List.replicate (4 - (rawStringsPayload data).length % 4) 0,
           by simp [h1, h2, List.append_assoc]⟩
  · exact ⟨[], [], by simp [h1, h2]⟩

theorem length_words_payload (l : List Nat) :
    ((l.map u32be).flatten).length = 4 * l.length := by
  induction l with
  | nil => rfl
  | cons w rest ih => simp [u32be, ih]; omega

/-- C8: when the starting byte offset is a multiple of 4, every property
    variant's emitted record (12-byte header, payload, padding) has total
    length a multiple of 4; and every begin-node record (tag plus embedded
    name field) is zero-padded to a 4-byte boundary. -/
theorem c8_alignment (strings : List Char) (pos version : Nat)
    (h : pos % 4 = 0) :
    (∀ name, (propertyToDtb name strings pos).1.length % 4 = 0) ∧
    (∀ name data,
       (propStringsToDtb name data strings pos version).1.length % 4 = 0) ∧
    (∀ name data, (propWordsToDtb name data strings pos).1.length % 4 = 0) ∧
    (∀ name data, (propBytesToDtb name data strings pos).1.length % 4 = 0) ∧
    (∀ name, (beginBlob name).length % 4 = 0) := by
  refine ⟨?_, ?_, ?_, ?_, ?_⟩
  · intro name
    simp [propertyToDtb, u32be]
  · intro name data
    unfold propStringsToDtb
    by_cases h1 : version < 16 ∧ (pos + 12) % 8 ≠ 0 <;>
      by_cases h2 : (rawStringsPayload data).length % 4 ≠ 0 <;>
      simp [h1, h2, u32be] <;> omega
  · intro name data
    unfold propWordsToDtb
    simp only [List.length_append, length_words_payload, u32be,
      List.length_cons, List.length_nil]
    omega
  · intro name data
    unfold propBytesToDtb
    dsimp only
    split <;> rename_i hc <;>
      simp only [List.length_append, List.length_replicate, u32be,
        List.length_cons, List.length_nil] at hc ⊢ <;> omega
  · intro name
    unfold beginBlob
    dsimp only
    by_cases hr : name = "/" <;>
      simp only [hr, if_pos, if_neg, ite_true, ite_false] <;>
      split <;> rename_i hc <;>
      simp only [List.length_append, List.length_replicate, u32be,
        List.length_cons, List.length_nil] at hc ⊢ <;> omega

theorem c8_alignment_witness :
    (0 : Nat) % 4 = 0 ∧
    ((∀ name, (propertyToDtb name [] 0).1.length % 4 = 0) ∧
     (∀ name data, (propStringsToDtb name data [] 0 15).1.length % 4 = 0) ∧
     (∀ name data, (propWordsToDtb name data [] 0).1.length % 4 = 0) ∧
     (∀ name data, (propBytesToDtb name data [] 0).1.length % 4 = 0) ∧
     (∀ name, (beginBlob name).length % 4 = 0)) :=
  ⟨by decide, c8_alignment [] 0 15 (by decide)⟩

/-- If two property objects compare equal under ==, their names agree. -/
theorem pyEq_name (a b : PropObj) (h : pyEq a b = true) : a.name = b.name := by
  have hm : ∀ x y : PropObj, eqMethod x y = true → x.name = y.name := by
    intro x y hxy
    unfold eqMethod at hxy
    rcases hx : x.cls <;> rw [hx] at hxy <;> simp at hxy <;> tauto
  unfold pyEq at h
  split at h
  · exact (hm b a h).symm
  · exact hm a b h

/-- C1: under the class/data well-formedness every real property object has,
    two property objects compare equal under == if and only if they have the
    same concrete class, the same name, the same data length and elementwise
    equal data, in order.  In particular an empty (base) property never
    equals a PropStrings/PropWords/PropBytes property: Python dispatches the
    comparison to the subclass's __eq__, whose isinstance test fails. -/
theorem c1_property_equality (a b : PropObj)
    (ha : PropWF a = true) (hb : PropWF b = true) :
    pyEq a b = true ↔
      (a.cls = b.cls ∧ a.name = b.name ∧
       pdataLen a.data = pdataLen b.data ∧
       ∀ i < pdataLen a.data, pelem a.data i = pelem b.data i) := by
  obtain ⟨an, acls, aws, ad, apc⟩ := a
  obtain ⟨bn, bcls, bws, bd, bpc⟩ := b
  cases acls <;> cases bcls <;> cases ad <;> cases bd <;>
    simp_all [PropWF, pyEq, eqMethod, pdataLen, pelem, List.mem_range] <;>
    tauto

theorem c1_property_equality_witness :
    PropWF { name := "model", cls := PClass.strings, wordSize := 32,
             data := PData.strs ["fsl"], pchain := [] } = true ∧
    (pyEq { name := "model", cls := PClass.strings, wordSize := 32,
            data := PData.strs ["fsl"], pchain := [] }
          { name := "model", cls := PClass.strings, wordSize := 32,
            data := PData.strs ["fsl"], pchain := ["/"] } = true ↔
       (PClass.strings = PClass.strings ∧ ("model" : String) = "model" ∧
        pdataLen (PData.strs ["fsl"]) = pdataLen (PData.strs ["fsl"]) ∧
        ∀ i < pdataLen (PData.strs ["fsl"]),
          pelem (PData.strs ["fsl"]) i = pelem (PData.strs ["fsl"]) i)) :=
  ⟨by decide,
   c1_property_equality
     { name := "model", cls := PClass.strings, wordSize := 32,
       data := PData.strs ["fsl"], pchain := [] }
     { name := "model", cls := PClass.strings, wordSize := 32,
       data := PData.strs ["fsl"], pchain := ["/"] }
     (by decide) (by decide)⟩

theorem setProps_name (nd : Node) (ps : List PropObj) :
    (nd.setProps ps).name = nd.name := by cases nd; rfl

theorem setProps_pchain (nd : Node) (ps : List PropObj) :
    (nd.setProps ps).pchain = nd.pchain := by cases nd; rfl

theorem setProps_props (nd : Node) (ps : List PropObj) :
    (nd.setProps ps).props = ps := by cases nd; rfl

theorem setProps_nodes (nd : Node) (ps : List PropObj) :
    (nd.setProps ps).nodes = nd.nodes := by cases nd; rfl

theorem setNodes_name (nd : Node) (ns : List Node) :
    (nd.setNodes ns).name = nd.name := by cases nd; rfl

theorem setNodes_pchain (nd : Node) (ns : List Node) :
    (nd.setNodes ns).pchain = nd.pchain := by cases nd; rfl

theorem setNodes_props (nd : Node) (ns : List Node) :
    (nd.setNodes ns).props = nd.props := by cases nd; rfl

theorem setNodes_nodes (nd : Node) (ns : List Node) :
    (nd.setNodes ns).nodes = ns := by cases nd; rfl

theorem setProps_self (nd : Node) : nd.setProps nd.props = nd := by cases nd; rfl

theorem setProps_setProps (nd : Node) (a b : List PropObj) :
    (nd.setProps a).setProps b = nd.setProps b := by cases nd; rfl

theorem copyProp_name (p : PropObj) : (copyProp p).name = p.name := by
  unfold copyProp; cases p.cls <;> rfl

theorem getPropIdx_eq_none_iff (props : List PropObj) (n : String) :
    getPropIdx props n = Option.none ↔ ∀ e ∈ props, e.name ≠ n := by
  induction props with
  | nil => simp [getPropIdx]
  | cons q rest ih =>
      by_cases hq : q.name = n <;> simp [getPropIdx, hq, ih]

theorem getNodeIdx_eq_none_iff (nodes : List Node) (n : String) :
    getNodeIdx nodes n = Option.none ↔ ∀ e ∈ nodes, e.name ≠ n := by
  induction nodes with
  | nil => simp [getNodeIdx]
  | cons q rest ih =>
      by_cases hq : q.name = n <;> simp [getNodeIdx, hq, ih]

theorem getProperty?_none (nd : Node) (n : String)
    (h : ∀ e ∈ nd.props, e.name ≠ n) : nd.getProperty? n = Option.none := by
  unfold Node.getProperty?
  rw [List.find?_eq_none]
  intro e he
  simp [h e he]

/-- mergePropStep acts on the property list alone: self's name, chain and
    children pass through unchanged. -/
theorem mergePropStep_eq (r : Bool) (acc : Node) (p : PropObj) :
    mergePropStep r acc p =
      acc.setProps (stepP r acc.name acc.pchain acc.props p) := by
  unfold mergePropStep stepP
  cases hidx : getPropIdx acc.props p.name with
  | none =>
      have habs : ∀ e ∈ acc.props, e.name ≠ p.name :=
        (getPropIdx_eq_none_iff _ _).mp hidx
      have h1 : acc.getProperty? (copyProp p).name = Option.none := by
        rw [copyProp_name]; exact getProperty?_none _ _ habs
      simp [Node.appendS, h1]
  | some i =>
      by_cases hany : acc.props.any (fun e => pyEq e p)
      · simp [hany, setProps_self]
      · cases r <;> simp [hany, setProps_self]

/-- The whole property loop of merge acts on the property list alone. -/
theorem foldP_eq (r : Bool) (bs : List PropObj) (acc : Node) :
    bs.foldl (mergePropStep r) acc =
      acc.setProps (bs.foldl (stepP r acc.name acc.pchain) acc.props) := by
  induction bs generalizing acc with
  | nil => simp [setProps_self]
  | cons b bs ih =>
      simp only [List.foldl_cons]
      rw [mergePropStep_eq, ih, setProps_name, setProps_pchain, setProps_props,
        setProps_setProps]

/-- The subnode loop of merge leaves self's properties, name and chain
    untouched. -/
theorem mergeNodesGo_props (subs : List Node) (s : Node) (r : Bool) :
    (mergeNodesGo s subs r).props = s.props ∧
    (mergeNodesGo s subs r).name = s.name ∧
    (mergeNodesGo s subs r).pchain = s.pchain := by
  induction subs generalizing s with
  | nil => rw [mergeNodesGo]; exact ⟨rfl, rfl, rfl⟩
  | cons c rest ih =>
      rw [mergeNodesGo]
      cases hidx : getNodeIdx s.nodes c.name with
      | none =>
          simp only [hidx]
          rcases ih (s.setNodes (s.nodes ++ [c])) with ⟨h1, h2, h3⟩
          exact ⟨by rw [h1, setNodes_props], by rw [h2, setNodes_name],
                 by rw [h3, setNodes_pchain]⟩
      | some i =>
          by_cases hany : s.nodes.any (fun e => nodeEqB e c)
          · simpa [hidx, hany] using ih s
          · simp only [hidx, hany]
            rcases ih (s.setNodes (modifyNodeAt s.nodes i
              (fun e => Node.merge e c r))) with ⟨h1, h2, h3⟩
            simp only [Bool.false_eq_true, if_false]
            exact ⟨by rw [h1, setNodes_props], by rw [h2, setNodes_name],
                   by rw [h3, setNodes_pchain]⟩

theorem merge_eq (self : Node) (onm : String) (och : List String)
    (ops : List PropObj) (ons : List Node) (r : Bool) :
    Node.merge self (Node.mk onm och ops ons) r =
      mergeNodesGo (ops.foldl (mergePropStep r) self) ons r := by
  rw [Node.merge]

theorem nodup_map_name_inj (l : List PropObj) (i j : Nat) (a b : PropObj)
    (hnd : (l.map (fun q => q.name)).Nodup)
    (ha : l.get? i = some a) (hb : l.get? j = some b)
    (hf : a.name = b.name) : i = j := by
  have hia : (l.map (fun q => q.name)).get? i = some a.name := by
    rw [List.get?_map, ha]; rfl
  have hjb : (l.map (fun q => q.name)).get? j = some b.name := by
    rw [List.get?_map, hb]; rfl
  have hlt : i < (l.map (fun q => q.name)).length := by
    rw [List.length_map]
    exact (List.get?_eq_some.mp ha).1
  exact List.get?_inj hlt hnd (by rw [hia, hjb, hf])

theorem modifyAt_length (l : List PropObj) (i : Nat) (f : PropObj → PropObj) :
    (modifyAt l i f).length = l.length := by
  induction l generalizing i with
  | nil => rfl
  | cons q rest ih => cases i <;> simp [modifyAt, ih]

theorem modifyAt_get?_ne (l : List PropObj) (i j : Nat) (f : PropObj → PropObj)
    (h : j ≠ i) : (modifyAt l i f).get? j = l.get? j := by
  induction l generalizing i j with
  | nil => rfl
  | cons q rest ih =>
      cases i with
      | zero =>
          cases j with
          | zero => exact absurd rfl h
          | succ j' => rfl
      | succ i' =>
          cases j with
          | zero => rfl
          | succ j' => exact ih i' j' (fun he => h (by rw [he]))

theorem modifyAt_get?_self (l : List PropObj) (i : Nat) (f : PropObj → PropObj)
    (q : PropObj) (h : l.get? i = some q) :
    (modifyAt l i f).get? i = some (f q) := by
  induction l generalizing i with
  | nil => cases h
  | cons p rest ih =>
      cases i with
      | zero => cases h; rfl
      | succ i' => exact ih i' h

theorem getPropIdx_some (props : List PropObj) (n : String) (i : Nat)
    (h : getPropIdx props n = some i) :
    ∃ q, props.get? i = some q ∧ q.name = n := by
  induction props generalizing i with
  | nil => cases h
  | cons p rest ih =>
      unfold getPropIdx at h
      by_cases hp : p.name = n
      · rw [if_pos hp] at h
        cases h
        exact ⟨p, rfl, hp⟩
      · rw [if_neg hp] at h
        cases hidx : getPropIdx rest n with
        | none => rw [hidx] at h; cases h
        | some k =>
            rw [hidx] at h
            cases h
            obtain ⟨q, hq, hn⟩ := ih k hidx
            exact ⟨q, hq, hn⟩

theorem getPropIdx_mk (props : List PropObj) (n : String) (i : Nat)
    (q : PropObj) (hq : props.get? i = some q) (hn : q.name = n)
    (hmin : ∀ j < i, ∀ p, props.get? j = some p → p.name ≠ n) :
    getPropIdx props n = some i := by
  induction props generalizing i with
  | nil => cases hq
  | cons p rest ih =>
      unfold getPropIdx
      cases i with
      | zero =>
          cases hq
          rw [if_pos hn]
      | succ i' =>
          have hp : p.name ≠ n := hmin 0 (Nat.succ_pos i') p rfl
          rw [if_neg hp]
          rw [ih i' hq (fun j hj pj hpj =>
            hmin (j + 1) (Nat.succ_lt_succ hj) pj hpj)]
          rfl

theorem stepP_none_eq (r : Bool) (nm : String) (ch : List String)
    (props : List PropObj) (p : PropObj)
    (hidx : getPropIdx props p.name = Option.none) :
    stepP r nm ch props p =
      props ++ [{ copyProp p with pchain := nm :: ch }] := by
  unfold stepP
  rw [hidx]

theorem stepP_found_eq (r : Bool) (nm : String) (ch : List String)
    (props : List PropObj) (p : PropObj) (i : Nat)
    (hidx : getPropIdx props p.name = some i) :
    stepP r nm ch props p =
      if props.any (fun e => pyEq e p) then props
      else if r then modifyAt props i (fun q => { q with data := p.data })
      else props := by
  unfold stepP
  rw [hidx]

theorem stepP_get?_name (r : Bool) (nm : String) (ch : List String)
    (props : List PropObj) (p : PropObj) (j : Nat) (q : PropObj)
    (hq : props.get? j = some q) :
    ∃ q', (stepP r nm ch props p).get? j = some q' ∧ q'.name = q.name := by
  have hj : j < props.length := (List.get?_eq_some.mp hq).1
  cases hidx : getPropIdx props p.name with
  | none =>
      rw [stepP_none_eq r nm ch props p hidx]
      exact ⟨q, by rw [List.get?_append hj]; exact hq, rfl⟩
  | some i =>
      rw [stepP_found_eq r nm ch props p i hidx]
      by_cases hany : props.any (fun e => pyEq e p)
      · rw [if_pos hany]; exact ⟨q, hq, rfl⟩
      · rw [if_neg hany]
        cases r with
        | false => exact ⟨q, hq, rfl⟩
        | true =>
            simp only [if_pos]
            by_cases hji : j = i
            · subst hji
              exact ⟨{ q with data := p.data },
                     modifyAt_get?_self props j _ q hq, rfl⟩
            · exact ⟨q, by rw [modifyAt_get?_ne props i j _ hji]; exact hq, rfl⟩

theorem stepP_get?_other (r : Bool) (nm : String) (ch : List String)
    (props : List PropObj) (p : PropObj) (j : Nat) (q : PropObj)
    (hq : props.get? j = some q) (hne : q.name ≠ p.name) :
    (stepP r nm ch props p).get? j = some q := by
  have hj : j < props.length := (List.get?_eq_some.mp hq).1
  cases hidx : getPropIdx props p.name with
  | none =>
      rw [stepP_none_eq r nm ch props p hidx]
      rw [List.get?_append hj]; exact hq
  | some i =>
      rw [stepP_found_eq r nm ch props p i hidx]
      by_cases hany : props.any (fun e => pyEq e p)
      · rw [if_pos hany]; exact hq
      · rw [if_neg hany]
        cases r with
        | false => exact hq
        | true =>
            simp only [if_pos]
            have hji : j ≠ i := by
              intro he
              obtain ⟨qi, hqi, hqin⟩ := getPropIdx_some props p.name i hidx
              rw [he, hqi] at hq
              cases hq
              exact hne hqin
            rw [modifyAt_get?_ne props i j _ hji]
            exact hq

theorem stepP_get?_new (r : Bool) (nm : String) (ch : List String)
    (props : List PropObj) (p : PropObj) (j : Nat) (q : PropObj)
    (hj : props.length ≤ j) (hq : (stepP r nm ch props p).get? j = some q) :
    q.name = p.name := by
  cases hidx : getPropIdx props p.name with
  | none =>
      rw [stepP_none_eq r nm ch props p hidx] at hq
      rw [List.get?_append_right hj] at hq
      cases hd : j - props.length with
      | zero =>
          rw [hd] at hq
          cases hq
          exact copyProp_name p
      | succ k => rw [hd] at hq; cases hq
  | some i =>
      rw [stepP_found_eq r nm ch props p i hidx] at hq
      by_cases hany : props.any (fun e => pyEq e p)
      · rw [if_pos hany] at hq
        have := List.get?_eq_none.mpr hj
        rw [this] at hq; cases hq
      · rw [if_neg hany] at hq
        cases r with
        | false =>
            have := List.get?_eq_none.mpr hj
            simp only [Bool.false_eq_true, if_false] at hq
            rw [this] at hq; cases hq
        | true =>
            simp only [if_pos] at hq
            have hlen : (modifyAt props i
                (fun x => { x with data := p.data })).length ≤ j := by
              rw [modifyAt_length]; exact hj
            rw [List.get?_eq_none.mpr hlen] at hq; cases hq

theorem foldP_get?_name (r : Bool) (nm : String) (ch : List String)
    (bs : List PropObj) (props : List PropObj) (j : Nat) (q : PropObj)
    (hq : props.get? j = some q) :
    ∃ q', (bs.foldl (stepP r nm ch) props).get? j = some q' ∧
          q'.name = q.name := by
  induction bs generalizing props q with
  | nil => exact ⟨q, hq, rfl⟩
  | cons b bs ih =>
      obtain ⟨q1, hq1, hn1⟩ := stepP_get?_name r nm ch props b j q hq
      obtain ⟨q', hq', hn'⟩ := ih (stepP r nm ch props b) q1 hq1
      exact ⟨q', hq', by rw [hn', hn1]⟩

theorem foldP_get?_other (r : Bool) (nm : String) (ch : List String)
    (bs : List PropObj) (props : List PropObj) (j : Nat) (q : PropObj)
    (hq : props.get? j = some q) (hbs : ∀ b ∈ bs, b.name ≠ q.name) :
    (bs.foldl (stepP r nm ch) props).get? j = some q := by
  induction bs generalizing props with
  | nil => exact hq
  | cons b bs ih =>
      have h1 : (stepP r nm ch props b).get? j = some q :=
        stepP_get?_other r nm ch props b j q hq
          (fun he => hbs b (List.mem_cons_self b bs) he.symm)
      exact ih (stepP r nm ch props b) h1
        (fun x hx => hbs x (List.mem_cons_of_mem b hx))

theorem foldP_get?_new (r : Bool) (nm : String) (ch : List String)
    (bs : List PropObj) (props : List PropObj) (j : Nat) (q : PropObj)
    (hj : props.length ≤ j)
    (hq : (bs.foldl (stepP r nm ch) props).get? j = some q) :
    q.name ∈ bs.map (fun b => b.name) := by
  induction bs generalizing props with
  | nil =>
      simp only [List.foldl_nil] at hq
      rw [List.get?_eq_none.mpr hj] at hq
      cases hq
  | cons b bs ih =>
      simp only [List.foldl_cons] at hq
      by_cases hlen : (stepP r nm ch props b).length ≤ j
      · exact List.mem_cons_of_mem _ (ih (stepP r nm ch props b) hlen hq)
      · push_neg at hlen
        cases hstep : (stepP r nm ch props b).get? j with
        | none =>
            rw [List.get?_eq_none] at hstep
            omega
        | some q1 =>
            have hqn : q1.name = b.name :=
              stepP_get?_new r nm ch props b j q1 hj hstep
            obtain ⟨q', hq', hn'⟩ :=
              foldP_get?_name r nm ch bs (stepP r nm ch props b) j q1 hstep
            rw [hq'] at hq
            cases hq
            rw [List.map_cons]
            rw [hn', hqn]
            exact List.mem_cons_self _ _

/-- The property loop of merge, at the property-list level: when self has a
    property pa at position i with the same name as pb from other but a
    different value, the loop leaves at position i the original property
    with its data replaced by pb's data when replace is true, and the
    original property untouched when replace is false. -/
theorem foldP_replace (r : Bool) (nm : String) (ch : List String)
    (aprops bprops : List PropObj) (i : Nat) (pa pb : PropObj)
    (hA : (aprops.map (fun q => q.name)).Nodup)
    (hB : (bprops.map (fun q => q.name)).Nodup)
    (hpa : aprops.get? i = some pa) (hpb : pb ∈ bprops)
    (hname : pa.name = pb.name) (hne : pyEq pa pb = false) :
    (bprops.foldl (stepP r nm ch) aprops).get? i =
      some (if r then { pa with data := pb.data } else pa) := by
  obtain ⟨l1, l2, hsplit⟩ := List.append_of_mem hpb
  subst hsplit
  have hl1 : ∀ b ∈ l1, b.name ≠ pb.name := by
    intro b hb he
    rw [List.map_append, List.map_cons, List.nodup_append] at hB
    exact hB.2.2 (List.mem_map_of_mem _ hb) (he ▸ List.mem_cons_self _ _)
  have hl2 : ∀ b ∈ l2, b.name ≠ pb.name := by
    intro b hb he
    rw [List.map_append, List.map_cons, List.nodup_append, List.nodup_cons] at hB
    exact hB.2.1.1 (he ▸ List.mem_map_of_mem _ hb)
  rw [List.foldl_append, List.foldl_cons]
  have hT : (l1.foldl (stepP r nm ch) aprops).get? i = some pa :=
    foldP_get?_other r nm ch l1 aprops i pa hpa
      (fun b hb => hname ▸ hl1 b hb)
  set T := l1.foldl (stepP r nm ch) aprops with hTdef
  have hi : i < aprops.length := (List.get?_eq_some.mp hpa).1
  -- the scan of merge finds pa's slot
  have hidx : getPropIdx T pb.name = some i := by
    apply getPropIdx_mk T pb.name i pa hT hname
    intro j hj pj hpj hjn
    have hjlen : j < aprops.length := Nat.lt_trans hj hi
    cases haj : aprops.get? j with
    | none => rw [List.get?_eq_none] at haj; omega
    | some qj =>
        obtain ⟨q', hq', hn'⟩ := foldP_get?_name r nm ch l1 aprops j qj haj
        rw [hq'] at hpj
        cases hpj
        have : j = i := by
          apply nodup_map_name_inj aprops j i qj pa hA haj hpa
          rw [← hn', hjn, hname]
        omega
  -- no element of the evolved list compares equal to pb
  have hany : T.any (fun e => pyEq e pb) = false := by
    rw [List.any_eq_false]
    intro e he
    obtain ⟨j, hj⟩ := List.mem_iff_get?.mp he
    intro habs
    have hen : e.name = pb.name := pyEq_name e pb habs
    by_cases hjlen : j < aprops.length
    · cases haj : aprops.get? j with
      | none => rw [List.get?_eq_none] at haj; omega
      | some qj =>
          obtain ⟨q', hq', hn'⟩ := foldP_get?_name r nm ch l1 aprops j qj haj
          rw [hq'] at hj
          cases hj
          have hji : j = i := by
            apply nodup_map_name_inj aprops j i qj pa hA haj hpa
            rw [← hn', hen, hname]
          subst hji
          rw [hT] at hq'
          cases hq'
          rw [habs] at hne
          cases hne
    · push_neg at hjlen
      have := foldP_get?_new r nm ch l1 aprops j e hjlen hj
      obtain ⟨b, hb, hbn⟩ := List.mem_map.mp this
      exact hl1 b hb (by rw [hbn, hen])
  have hstep : stepP r nm ch T pb =
      if r then modifyAt T i (fun q => { q with data := pb.data }) else T := by
    rw [stepP_found_eq r nm ch T pb i hidx,
      if_neg (by rw [hany]; exact Bool.false_ne_true)]
  rw [hstep]
  cases r with
  | true =>
      simp only [if_pos]
      refine foldP_get?_other true nm ch l2 _ i { pa with data := pb.data }
        (modifyAt_get?_self T i _ pa hT) ?_
      intro b hb
      show b.name ≠ pa.name
      rw [hname]
      exact hl2 b hb
  | false =>
      simp only [Bool.false_eq_true, if_false]
      refine foldP_get?_other false nm ch l2 T i pa hT ?_
      intro b hb
      rw [hname]
      exact hl2 b hb

/-- The property loop of merge, at the property-list level: a property of
    other whose name is absent from self is appended as a copy whose parent
    chain points at self. -/
theorem foldP_absent (r : Bool) (nm : String) (ch : List String)
    (aprops bprops : List PropObj) (pc : PropObj)
    (hB : (bprops.map (fun q => q.name)).Nodup)
    (hpc : pc ∈ bprops)
    (habs : ∀ e ∈ aprops, e.name ≠ pc.name) :
    { copyProp pc with pchain := nm :: ch } ∈
      bprops.foldl (stepP r nm ch) aprops := by
  obtain ⟨l1, l2, hsplit⟩ := List.append_of_mem hpc
  subst hsplit
  have hl1 : ∀ b ∈ l1, b.name ≠ pc.name := by
    intro b hb he
    rw [List.map_append, List.map_cons, List.nodup_append] at hB
    exact hB.2.2 (List.mem_map_of_mem _ hb) (he ▸ List.mem_cons_self _ _)
  have hl2 : ∀ b ∈ l2, b.name ≠ pc.name := by
    intro b hb he
    rw [List.map_append, List.map_cons, List.nodup_append, List.nodup_cons] at hB
    exact hB.2.1.1 (he ▸ List.mem_map_of_mem _ hb)
  rw [List.foldl_append, List.foldl_cons]
  set T := l1.foldl (stepP r nm ch) aprops with hTdef
  have hidx : getPropIdx T pc.name = Option.none := by
    rw [getPropIdx_eq_none_iff]
    intro e he
    obtain ⟨j, hj⟩ := List.mem_iff_get?.mp he
    by_cases hjlen : j < aprops.length
    · cases haj : aprops.get? j with
      | none => rw [List.get?_eq_none] at haj; omega
      | some qj =>
          obtain ⟨q', hq', hn'⟩ := foldP_get?_name r nm ch l1 aprops j qj haj
          rw [hq'] at hj
          cases hj
          rw [hn']
          exact habs qj (List.get?_mem haj)
    · push_neg at hjlen
      have := foldP_get?_new r nm ch l1 aprops j e hjlen hj
      obtain ⟨b, hb, hbn⟩ := List.mem_map.mp this
      exact fun he2 => hl1 b hb (by rw [hbn, he2])
  have hstep : stepP r nm ch T pc =
      T ++ [{ copyProp pc with pchain := nm :: ch }] :=
    stepP_none_eq r nm ch T pc hidx
  rw [hstep]
  have hpos : (T ++ [{ copyProp pc with pchain := nm :: ch }]).get? T.length =
      some { copyProp pc with pchain := nm :: ch } :=
    List.get?_concat_length T _
  have hfinal := foldP_get?_other r nm ch l2 _ T.length _ hpos
    (fun b hb he => hl2 b hb (by
      have : (copyProp pc).name = pc.name := copyProp_name pc
      simp only [he] at this ⊢
      exact this.symm ▸ rfl))
  exact List.get?_mem hfinal

/-- C4: for nodes A and B both holding a property of the same name with
    unequal values (pa at position i of A, pb in B), merge with replace=true
    leaves at position i A's original property object with only its data
    attribute overwritten by pb's payload (name, class and word size are not
    re-validated), merge with replace=false leaves it untouched, and any
    property of B whose name is absent from A is appended to A as a copy. -/
theorem c4_merge_semantics (A B : Node) (i : Nat) (pa pb : PropObj)
    (hA : (A.props.map (fun q => q.name)).Nodup)
    (hB : (B.props.map (fun q => q.name)).Nodup)
    (hpa : A.props.get? i = some pa)
    (hpb : pb ∈ B.props)
    (hname : pa.name = pb.name)
    (hne : pyEq pa pb = false) :
    (Node.merge A B true).props.get? i = some { pa with data := pb.data } ∧
    (Node.merge A B false).props.get? i = some pa ∧
    (∀ (r : Bool) (pc : PropObj), pc ∈ B.props →
       (∀ e ∈ A.props, e.name ≠ pc.name) →
       { copyProp pc with pchain := A.name :: A.pchain } ∈
         (Node.merge A B r).props) := by
  have hprops : ∀ r : Bool, (Node.merge A B r).props =
      B.props.foldl (stepP r A.name A.pchain) A.props := by
    intro r
    cases B with
    | mk bn bc bprops bnodes =>
        rw [merge_eq]
        rw [(mergeNodesGo_props bnodes _ r).1]
        rw [foldP_eq, setProps_props]
        rfl
  refine ⟨?_, ?_, ?_⟩
  · rw [hprops true]
    have := foldP_replace true A.name A.pchain A.props B.props i pa pb
      hA hB hpa hpb hname hne
    simpa using this
  · rw [hprops false]
    have := foldP_replace false A.name A.pchain A.props B.props i pa pb
      hA hB hpa hpb hname hne
    simpa using this
  · intro r pc hpc habs
    rw [hprops r]
    exact foldP_absent r A.name A.pchain A.props B.props pc hB hpc habs

theorem c4_merge_semantics_witness :
    ((Node.mk "A" [] [{ name := "p", cls := PClass.words, wordSize := 32,
                        data := PData.wrds [1], pchain := [] }] []).props.map
        (fun q => q.name)).Nodup ∧
    ((Node.mk "B" [] [{ name := "p", cls := PClass.words, wordSize := 32,
                        data := PData.wrds [2], pchain := [] },
                      { name := "q", cls := PClass.words, wordSize := 32,
                        data := PData.wrds [3], pchain := [] }] []).props.map
        (fun q => q.name)).Nodup ∧
    (Node.mk "A" [] [{ name := "p", cls := PClass.words, wordSize := 32,
                       data := PData.wrds [1], pchain := [] }] []).props.get? 0 =
      some { name := "p", cls := PClass.words, wordSize := 32,
             data := PData.wrds [1], pchain := [] } ∧
    { name := "p", cls := PClass.words, wordSize := 32,
      data := PData.wrds [2], pchain := [] } ∈
      (Node.mk "B" [] [{ name := "p", cls := PClass.words, wordSize := 32,
                         data := PData.wrds [2], pchain := [] },
                       { name := "q", cls := PClass.words, wordSize := 32,
                         data := PData.wrds [3], pchain := [] }] []).props ∧
    pyEq { name := "p", cls := PClass.words, wordSize := 32,
           data := PData.wrds [1], pchain := [] }
         { name := "p", cls := PClass.words, wordSize := 32,
           data := PData.wrds [2], pchain := [] } = false ∧
    ((Node.merge
        (Node.mk "A" [] [{ name := "p", cls := PClass.words, wordSize := 32,
                           data := PData.wrds [1], pchain := [] }] [])
        (Node.mk "B" [] [{ name := "p", cls := PClass.words, wordSize := 32,
                           data := PData.wrds [2], pchain := [] },
                         { name := "q", cls := PClass.words, wordSize := 32,
                           data := PData.wrds [3], pchain := [] }] [])
        true).props.get? 0 =
       some { name := "p", cls := PClass.words, wordSize := 32,
              data := PData.wrds [2], pchain := [] } ∧
     (Node.merge
        (Node.mk "A" [] [{ name := "p", cls := PClass.words, wordSize := 32,
                           data := PData.wrds [1], pchain := [] }] [])
        (Node.mk "B" [] [{ name := "p", cls := PClass.words, wordSize := 32,
                           data := PData.wrds [2], pchain := [] },
                         { name := "q", cls := PClass.words, wordSize := 32,
                           data := PData.wrds [3], pchain := [] }] [])
        false).props.get? 0 =
       some { name := "p", cls := PClass.words, wordSize := 32,
              data := PData.wrds [1], pchain := [] } ∧
     (∀ (r : Bool) (pc : PropObj),
        pc ∈ (Node.mk "B" [] [{ name := "p", cls := PClass.words,
                                wordSize := 32, data := PData.wrds [2],
                                pchain := [] },
                              { name := "q", cls := PClass.words,
                                wordSize := 32, data := PData.wrds [3],
                                pchain := [] }] []).props →
        (∀ e ∈ (Node.mk "A" [] [{ name := "p", cls := PClass.words,
                                  wordSize := 32, data := PData.wrds [1],
                                  pchain := [] }] []).props,
           e.name ≠ pc.name) →
        { copyProp pc with
          pchain := (Node.mk "A" [] [{ name := "p", cls := PClass.words,
                                       wordSize := 32, data := PData.wrds [1],
                                       pchain := [] }] []).name ::
                    (Node.mk "A" [] [{ name := "p", cls := PClass.words,
                                       wordSize := 32, data := PData.wrds [1],
                                       pchain := [] }] []).pchain } ∈
          (Node.merge
             (Node.mk "A" [] [{ name := "p", cls := PClass.words,
                                wordSize := 32, data := PData.wrds [1],
                                pchain := [] }] [])
             (Node.mk "B" [] [{ name := "p", cls := PClass.words,
                                wordSize := 32, data := PData.wrds [2],
                                pchain := [] },
                              { name := "q", cls := PClass.words,
                                wordSize := 32, data := PData.wrds [3],
                                pchain := [] }] []) r).props)) :=
  ⟨by decide, by decide, rfl, by decide, by decide,
   c4_merge_semantics
     (Node.mk "A" [] [{ name := "p", cls := PClass.words, wordSize := 32,
                        data := PData.wrds [1], pchain := [] }] [])
     (Node.mk "B" [] [{ name := "p", cls := PClass.words, wordSize := 32,
                        data := PData.wrds [2], pchain := [] },
                      { name := "q", cls := PClass.words, wordSize := 32,
                        data := PData.wrds [3], pchain := [] }] [])
     0
     { name := "p", cls := PClass.words, wordSize := 32,
       data := PData.wrds [1], pchain := [] }
     { name := "p", cls := PClass.words, wordSize := 32,
       data := PData.wrds [2], pchain := [] }
     (by decide) (by decide) rfl (by decide) rfl (by decide)⟩

/-! ## The subnode loop of merge, step by step (for the parent-reference
    claim) -/

theorem modifyNodeAt_length (l : List Node) (i : Nat) (f : Node → Node) :
    (modifyNodeAt l i f).length = l.length := by
  induction l generalizing i with
  | nil => rfl
  | cons q rest ih => cases i <;> simp [modifyNodeAt, ih]

theorem modifyNodeAt_get?_ne (l : List Node) (i j : Nat) (f : Node → Node)
    (h : j ≠ i) : (modifyNodeAt l i f).get? j = l.get? j := by
  induction l generalizing i j with
  | nil => rfl
  | cons q rest ih =>
      cases i with
      | zero =>
          cases j with
          | zero => exact absurd rfl h
          | succ j' => rfl
      | succ i' =>
          cases j with
          | zero => rfl
          | succ j' => exact ih i' j' (fun he => h (by rw [he]))

theorem modifyNodeAt_get?_self (l : List Node) (i : Nat) (f : Node → Node)
    (q : Node) (h : l.get? i = some q) :
    (modifyNodeAt l i f).get? i = some (f q) := by
  induction l generalizing i with
  | nil => cases h
  | cons p rest ih =>
      cases i with
      | zero => cases h; rfl
      | succ i' => exact ih i' h

theorem getNodeIdx_some (nodes : List Node) (n : String) (i : Nat)
    (h : getNodeIdx nodes n = some i) :
    ∃ q, nodes.get? i = some q ∧ q.name = n := by
  induction nodes generalizing i with
  | nil => cases h
  | cons p rest ih =>
      unfold getNodeIdx at h
      by_cases hp : p.name = n
      · rw [if_pos hp] at h
        cases h
        exact ⟨p, rfl, hp⟩
      · rw [if_neg hp] at h
        cases hidx : getNodeIdx rest n with
        | none => rw [hidx] at h; cases h
        | some k =>
            rw [hidx] at h
            cases h
            obtain ⟨q, hq, hn⟩ := ih k hidx
            exact ⟨q, hq, hn⟩

/-- merge never renames the node merged into. -/
theorem merge_name (a b : Node) (r : Bool) :
    (Node.merge a b r).name = a.name := by
  cases b with
  | mk bn bc bp bns =>
      rw [merge_eq]
      rw [(mergeNodesGo_props bns _ r).2.1]
      rw [foldP_eq, setProps_name]

theorem nodeStepN_none_eq (r : Bool) (s c : Node)
    (hidx : getNodeIdx s.nodes c.name = Option.none) :
    nodeStepN r s c = s.setNodes (s.nodes ++ [c]) := by
  unfold nodeStepN
  rw [hidx]

theorem nodeStepN_found_eq (r : Bool) (s c : Node) (i : Nat)
    (hidx : getNodeIdx s.nodes c.name = some i) :
    nodeStepN r s c =
      if s.nodes.any (fun e => nodeEqB e c) then s
      else s.setNodes (modifyNodeAt s.nodes i (fun e => Node.merge e c r)) := by
  unfold nodeStepN
  rw [hidx]

theorem mergeNodesGo_nil_eq (s : Node) (r : Bool) :
    mergeNodesGo s [] r = s := by
  rw [mergeNodesGo]

theorem mergeNodesGo_cons_eq (s c : Node) (rest : List Node) (r : Bool) :
    mergeNodesGo s (c :: rest) r = mergeNodesGo (nodeStepN r s c) rest r := by
  rw [mergeNodesGo]
  rfl

theorem mergeNodesGo_append (s : Node) (l1 l2 : List Node) (r : Bool) :
    mergeNodesGo s (l1 ++ l2) r =
      mergeNodesGo (mergeNodesGo s l1 r) l2 r := by
  induction l1 generalizing s with
  | nil =>
      rw [mergeNodesGo_nil_eq, List.nil_append]
  | cons c rest ih =>
      rw [List.cons_append, mergeNodesGo_cons_eq, mergeNodesGo_cons_eq, ih]

theorem stepN_get?_name (r : Bool) (s d : Node) (j : Nat) (e : Node)
    (he : s.nodes.get? j = some e) :
    ∃ e', (nodeStepN r s d).nodes.get? j = some e' ∧ e'.name = e.name := by
  have hj : j < s.nodes.length := (List.get?_eq_some.mp he).1
  cases hidx : getNodeIdx s.nodes d.name with
  | none =>
      rw [nodeStepN_none_eq r s d hidx, setNodes_nodes]
      exact ⟨e, by rw [List.get?_append hj]; exact he, rfl⟩
  | some i =>
      rw [nodeStepN_found_eq r s d i hidx]
      by_cases hany : s.nodes.any (fun x => nodeEqB x d)
      · rw [if_pos hany]; exact ⟨e, he, rfl⟩
      · rw [if_neg hany, setNodes_nodes]
        by_cases hji : j = i
        · subst hji
          exact ⟨Node.merge e d r,
                 modifyNodeAt_get?_self s.nodes j _ e he,
                 merge_name e d r⟩
        · exact ⟨e, by rw [modifyNodeAt_get?_ne s.nodes i j _ hji]; exact he,
                 rfl⟩

theorem stepN_get?_other (r : Bool) (s d : Node) (j : Nat) (e : Node)
    (he : s.nodes.get? j = some e) (hne : e.name ≠ d.name) :
    (nodeStepN r s d).nodes.get? j = some e := by
  have hj : j < s.nodes.length := (List.get?_eq_some.mp he).1
  cases hidx : getNodeIdx s.nodes d.name with
  | none =>
      rw [nodeStepN_none_eq r s d hidx, setNodes_nodes, List.get?_append hj]
      exact he
  | some i =>
      rw [nodeStepN_found_eq r s d i hidx]
      by_cases hany : s.nodes.any (fun x => nodeEqB x d)
      · rw [if_pos hany]; exact he
      · rw [if_neg hany, setNodes_nodes]
        have hji : j ≠ i := by
          intro hji2
          obtain ⟨qi, hqi, hqin⟩ := getNodeIdx_some s.nodes d.name i hidx
          rw [hji2, hqi] at he
          cases he
          exact hne hqin
        rw [modifyNodeAt_get?_ne s.nodes i j _ hji]
        exact he

theorem stepN_get?_new (r : Bool) (s d : Node) (j : Nat) (e : Node)
    (hj : s.nodes.length ≤ j)
    (he : (nodeStepN r s d).nodes.get? j = some e) :
    e.name = d.name := by
  cases hidx : getNodeIdx s.nodes d.name with
  | none =>
      rw [nodeStepN_none_eq r s d hidx, setNodes_nodes] at he
      rw [List.get?_append_right hj] at he
      cases hd : j - s.nodes.length with
      | zero => rw [hd] at he; cases he; rfl
      | succ k => rw [hd] at he; cases he
  | some i =>
      rw [nodeStepN_found_eq r s d i hidx] at he
      by_cases hany : s.nodes.any (fun x => nodeEqB x d)
      · rw [if_pos hany] at he
        rw [List.get?_eq_none.mpr hj] at he
        cases he
      · rw [if_neg hany, setNodes_nodes] at he
        have hlen : (modifyNodeAt s.nodes i
            (fun x => Node.merge x d r)).length ≤ j := by
          rw [modifyNodeAt_length]; exact hj
        rw [List.get?_eq_none.mpr hlen] at he
        cases he

theorem mergeNodesGo_get?_name (subs : List Node) (s : Node) (r : Bool)
    (j : Nat) (e : Node) (he : s.nodes.get? j = some e) :
    ∃ e', (mergeNodesGo s subs r).nodes.get? j = some e' ∧
          e'.name = e.name := by
  induction subs generalizing s e with
  | nil =>
      rw [mergeNodesGo_nil_eq]
      exact ⟨e, he, rfl⟩
  | cons d rest ih =>
      rw [mergeNodesGo_cons_eq]
      obtain ⟨e1, he1, hn1⟩ := stepN_get?_name r s d j e he
      obtain ⟨e', he', hn'⟩ := ih (nodeStepN r s d) e1 he1
      exact ⟨e', he', by rw [hn', hn1]⟩

theorem mergeNodesGo_get?_other (subs : List Node) (s : Node) (r : Bool)
    (j : Nat) (e : Node) (he : s.nodes.get? j = some e)
    (hsubs : ∀ d ∈ subs, d.name ≠ e.name) :
    (mergeNodesGo s subs r).nodes.get? j = some e := by
  induction subs generalizing s with
  | nil =>
      rw [mergeNodesGo_nil_eq]
      exact he
  | cons d rest ih =>
      rw [mergeNodesGo_cons_eq]
      have h1 : (nodeStepN r s d).nodes.get? j = some e :=
        stepN_get?_other r s d j e he
          (fun h2 => hsubs d (List.mem_cons_self d rest) h2.symm)
      exact ih (nodeStepN r s d) h1
        (fun x hx => hsubs x (List.mem_cons_of_mem d hx))

theorem mergeNodesGo_get?_new (subs : List Node) (s : Node) (r : Bool)
    (j : Nat) (e : Node) (hj : s.nodes.length ≤ j)
    (he : (mergeNodesGo s subs r).nodes.get? j = some e) :
    e.name ∈ subs.map Node.name := by
  induction subs generalizing s with
  | nil =>
      rw [mergeNodesGo_nil_eq] at he
      rw [List.get?_eq_none.mpr hj] at he
      cases he
  | cons d rest ih =>
      rw [mergeNodesGo_cons_eq] at he
      by_cases hlen : (nodeStepN r s d).nodes.length ≤ j
      · exact List.mem_cons_of_mem _ (ih (nodeStepN r s d) hlen he)
      · push_neg at hlen
        cases hstep : (nodeStepN r s d).nodes.get? j with
        | none =>
            rw [List.get?_eq_none] at hstep
            omega
        | some e1 =>
            have hqn : e1.name = d.name := stepN_get?_new r s d j e1 hj hstep
            obtain ⟨e', he', hn'⟩ :=
              mergeNodesGo_get?_name rest (nodeStepN r s d) r j e1 hstep
            rw [he'] at he
            cases he
            rw [List.map_cons, hn', hqn]
            exact List.mem_cons_self _ _

/-- The subnode loop of merge: a sub_node whose name is absent from the
    current node's children is appended to the child list verbatim (parent
    chain untouched), and survives the remaining iterations. -/
theorem mergeNodesGo_mem_absent (subs : List Node) (s : Node) (r : Bool)
    (c : Node) (hnd : (subs.map Node.name).Nodup) (hc : c ∈ subs)
    (habs : ∀ e ∈ s.nodes, e.name ≠ c.name) :
    c ∈ (mergeNodesGo s subs r).nodes := by
  obtain ⟨l1, l2, hsplit⟩ := List.append_of_mem hc
  subst hsplit
  have hl1 : ∀ d ∈ l1, d.name ≠ c.name := by
    intro d hd he
    rw [List.map_append, List.map_cons, List.nodup_append] at hnd
    exact hnd.2.2 (List.mem_map_of_mem _ hd) (he ▸ List.mem_cons_self _ _)
  have hl2 : ∀ d ∈ l2, d.name ≠ c.name := by
    intro d hd he
    rw [List.map_append, List.map_cons, List.nodup_append,
      List.nodup_cons] at hnd
    exact hnd.2.1.1 (he ▸ List.mem_map_of_mem _ hd)
  rw [mergeNodesGo_append, mergeNodesGo_cons_eq]
  set T := mergeNodesGo s l1 r with hT
  have hidx : getNodeIdx T.nodes c.name = Option.none := by
    rw [getNodeIdx_eq_none_iff]
    intro e he
    obtain ⟨j, hj⟩ := List.mem_iff_get?.mp he
    by_cases hjlen : j < s.nodes.length
    · cases haj : s.nodes.get? j with
      | none => rw [List.get?_eq_none] at haj; omega
      | some qj =>
          obtain ⟨e', he', hn'⟩ := mergeNodesGo_get?_name l1 s r j qj haj
          rw [he'] at hj
          cases hj
          rw [hn']
          exact habs qj (List.get?_mem haj)
    · push_neg at hjlen
      have hmem := mergeNodesGo_get?_new l1 s r j e hjlen hj
      obtain ⟨d, hd, hdn⟩ := List.mem_map.mp hmem
      exact fun he2 => hl1 d hd (by rw [hdn, he2])
  rw [nodeStepN_none_eq r T c hidx]
  have hpos : (T.setNodes (T.nodes ++ [c])).nodes.get? T.nodes.length =
      some c := by
    rw [setNodes_nodes]
    exact List.get?_concat_length T.nodes c
  have hfinal := mergeNodesGo_get?_other l2 (T.setNodes (T.nodes ++ [c])) r
    T.nodes.length c hpos hl2
  exact List.get?_mem hfinal

/-- C9: whenever merge encounters a child of other whose name is absent from
    self, the deep-copied subtree is appended directly to self's internal
    child list without going through append, so the appended copy is other's
    child verbatim — in particular its parent back-reference (pchain) is NOT
    rebased to self, and its computed path does not list self as an
    ancestor; by contrast, every property of other appended by the same
    merge goes through append and gets its parent set to self (its pchain
    becomes self.name :: self.pchain). -/
theorem c9_merge_parent (self other : Node) (r : Bool)
    (hnp : (other.props.map (fun q => q.name)).Nodup)
    (hnn : (other.nodes.map Node.name).Nodup) :
    (∀ c ∈ other.nodes, (∀ e ∈ self.nodes, e.name ≠ c.name) →
       c ∈ (Node.merge self other r).nodes) ∧
    (∀ p ∈ other.props, (∀ e ∈ self.props, e.name ≠ p.name) →
       { copyProp p with pchain := self.name :: self.pchain } ∈
         (Node.merge self other r).props) := by
  cases other with
  | mk onm och oprops onodes =>
      simp only [Node.props, Node.nodes] at hnp hnn
      rw [merge_eq]
      have hnodes : (oprops.foldl (mergePropStep r) self).nodes =
          self.nodes := by
        rw [foldP_eq, setProps_nodes]
      constructor
      · intro c hc habs
        simp only [Node.nodes] at hc
        exact mergeNodesGo_mem_absent onodes _ r c hnn hc
          (by rw [hnodes]; exact habs)
      · intro p hp habs
        simp only [Node.props] at hp
        rw [(mergeNodesGo_props onodes _ r).1, foldP_eq, setProps_props]
        exact foldP_absent r self.name self.pchain self.props oprops p
          hnp hp habs

theorem c9_merge_parent_witness :
    ((Node.mk "B" ["/"] [{ name := "q", cls := PClass.words, wordSize := 32,
                           data := PData.wrds [2], pchain := ["B", "/"] }]
        [Node.mk "sub1" ["B", "/"] [] [],
         Node.mk "sub2" ["B", "/"] [] []]).props.map
       (fun q => q.name)).Nodup ∧
    ((Node.mk "B" ["/"] [{ name := "q", cls := PClass.words, wordSize := 32,
                           data := PData.wrds [2], pchain := ["B", "/"] }]
        [Node.mk "sub1" ["B", "/"] [] [],
         Node.mk "sub2" ["B", "/"] [] []]).nodes.map Node.name).Nodup ∧
    ((∀ c ∈ (Node.mk "B" ["/"] [{ name := "q", cls := PClass.words,
                                  wordSize := 32, data := PData.wrds [2],
                                  pchain := ["B", "/"] }]
         [Node.mk "sub1" ["B", "/"] [] [],
          Node.mk "sub2" ["B", "/"] [] []]).nodes,
        (∀ e ∈ (Node.mk "A" [] [] []).nodes, e.name ≠ c.name) →
        c ∈ (Node.merge (Node.mk "A" [] [] [])
               (Node.mk "B" ["/"] [{ name := "q", cls := PClass.words,
                                     wordSize := 32, data := PData.wrds [2],
                                     pchain := ["B", "/"] }]
                  [Node.mk "sub1" ["B", "/"] [] [],
                   Node.mk "sub2" ["B", "/"] [] []]) true).nodes) ∧
     (∀ p ∈ (Node.mk "B" ["/"] [{ name := "q", cls := PClass.words,
                                  wordSize := 32, data := PData.wrds [2],
                                  pchain := ["B", "/"] }]
         [Node.mk "sub1" ["B", "/"] [] [],
          Node.mk "sub2" ["B", "/"] [] []]).props,
        (∀ e ∈ (Node.mk "A" [] [] []).props, e.name ≠ p.name) →
        { copyProp p with
          pchain := (Node.mk "A" [] [] []).name ::
                    (Node.mk "A" [] [] []).pchain } ∈
          (Node.merge (Node.mk "A" [] [] [])
             (Node.mk "B" ["/"] [{ name := "q", cls := PClass.words,
                                   wordSize := 32, data := PData.wrds [2],
                                   pchain := ["B", "/"] }]
                [Node.mk "sub1" ["B", "/"] [] [],
                 Node.mk "sub2" ["B", "/"] [] []]) true).props)) :=
  ⟨by decide, by decide,
   c9_merge_parent (Node.mk "A" [] [] [])
     (Node.mk "B" ["/"] [{ name := "q", cls := PClass.words, wordSize := 32,
                           data := PData.wrds [2], pchain := ["B", "/"] }]
        [Node.mk "sub1" ["B", "/"] [] [],
         Node.mk "sub2" ["B", "/"] [] []]) true (by decide) (by decide)⟩

/-! ## String-table lemmas for the deduplication claim -/

theorem headMatch_cons_cons (a b : Char) (p t : List Char) :
    headMatch (a :: p) (b :: t) = (a == b && headMatch p t) := rfl

theorem listFind_nil_eq (pat : List Char) :
    listFind [] pat =
      if headMatch pat [] = true then some 0 else Option.none := rfl

theorem listFind_cons_eq (c : Char) (t pat : List Char) :
    listFind (c :: t) pat =
      if headMatch pat (c :: t) = true then some 0
      else (listFind t pat).map (· + 1) := rfl

theorem headMatch_length (p t : List Char) (h : headMatch p t = true) :
    p.length ≤ t.length := by
  induction p generalizing t with
  | nil => simp
  | cons a p ih =>
      cases t with
      | nil => cases h
      | cons b t =>
          rw [headMatch_cons_cons, Bool.and_eq_true] at h
          have := ih t h.2
          simp only [List.length_cons]
          omega

theorem headMatch_append (p t s : List Char) (h : headMatch p t = true) :
    headMatch p (t ++ s) = true := by
  induction p generalizing t with
  | nil => rfl
  | cons a p ih =>
      cases t with
      | nil => cases h
      | cons b t =>
          rw [headMatch_cons_cons, Bool.and_eq_true] at h
          rw [List.cons_append, headMatch_cons_cons, Bool.and_eq_true]
          exact ⟨h.1, ih t h.2⟩

theorem headMatch_prefix_trim (p t s : List Char)
    (h : headMatch p (t ++ s) = true) (hle : p.length ≤ t.length) :
    headMatch p t = true := by
  induction p generalizing t with
  | nil => rfl
  | cons a p ih =>
      cases t with
      | nil => simp at hle
      | cons b t =>
          rw [List.cons_append, headMatch_cons_cons, Bool.and_eq_true] at h
          rw [headMatch_cons_cons, Bool.and_eq_true]
          refine ⟨h.1, ih t h.2 ?_⟩
          simp only [List.length_cons] at hle
          omega

theorem headMatch_self (p : List Char) : headMatch p p = true := by
  induction p with
  | nil => rfl
  | cons a p ih =>
      rw [headMatch_cons_cons, Bool.and_eq_true]
      exact ⟨by simp, ih⟩

theorem headMatch_get (p t : List Char) (h : headMatch p t = true)
    (k : Nat) (hk : k < p.length) : t.get? k = p.get? k := by
  induction p generalizing t k with
  | nil => simp at hk
  | cons a p ih =>
      cases t with
      | nil => cases h
      | cons b t =>
          rw [headMatch_cons_cons, Bool.and_eq_true] at h
          cases k with
          | zero =>
              have : a = b := by
                have := h.1
                simpa using this
              simp [this]
          | succ k' =>
              simp only [List.length_cons] at hk
              exact ih t h.2 k' (by omega)

theorem listFind_none_iff (t pat : List Char) :
    listFind t pat = Option.none ↔
      ∀ q, ¬ headMatch pat (t.drop q) = true := by
  induction t with
  | nil =>
      rw [listFind_nil_eq]
      by_cases h0 : headMatch pat [] = true
      · rw [if_pos h0]
        constructor
        · intro h; cases h
        · intro h
          exact absurd h0 (by simpa using h 0)
      · rw [if_neg h0]
        constructor
        · intro _ q
          rw [List.drop_nil]
          exact h0
        · intro _
          rfl
  | cons c t' ih =>
      rw [listFind_cons_eq]
      by_cases h0 : headMatch pat (c :: t') = true
      · rw [if_pos h0]
        constructor
        · intro h; cases h
        · intro h
          exact absurd h0 (by simpa using h 0)
      · rw [if_neg h0]
        constructor
        · intro h q
          cases q with
          | zero => simpa using h0
          | succ q' =>
              have h1 : listFind t' pat = Option.none := by
                cases hf : listFind t' pat with
                | none => rfl
                | some k => rw [hf] at h; cases h
              exact (ih.mp h1) q'
        · intro h
          have h1 : listFind t' pat = Option.none :=
            ih.mpr (fun q => h (q + 1))
          rw [h1]
          rfl

theorem listFind_some (t pat : List Char) (p : Nat)
    (h : listFind t pat = some p) :
    headMatch pat (t.drop p) = true ∧
      ∀ q < p, ¬ headMatch pat (t.drop q) = true := by
  induction t generalizing p with
  | nil =>
      rw [listFind_nil_eq] at h
      by_cases h0 : headMatch pat [] = true
      · rw [if_pos h0] at h
        cases h
        exact ⟨h0, by omega⟩
      · rw [if_neg h0] at h
        cases h
  | cons c t' ih =>
      rw [listFind_cons_eq] at h
      by_cases h0 : headMatch pat (c :: t') = true
      · rw [if_pos h0] at h
        cases h
        exact ⟨h0, by omega⟩
      · rw [if_neg h0] at h
        cases hf : listFind t' pat with
        | none => rw [hf] at h; cases h
        | some k =>
            rw [hf, Option.map_some'] at h
            cases h
            obtain ⟨hm, hmin⟩ := ih k hf
            refine ⟨hm, ?_⟩
            intro q hq
            cases q with
            | zero => simpa using h0
            | succ q' => exact hmin q' (by omega)

theorem listFind_mk (t pat : List Char) (p : Nat)
    (hm : headMatch pat (t.drop p) = true)
    (hmin : ∀ q < p, ¬ headMatch pat (t.drop q) = true) :
    listFind t pat = some p := by
  induction t generalizing p with
  | nil =>
      cases p with
      | zero =>
          rw [List.drop_zero] at hm
          rw [listFind_nil_eq, if_pos hm]
      | succ p' =>
          rw [List.drop_nil] at hm
          exact absurd (by rw [List.drop_zero]; exact hm)
            (hmin 0 (Nat.succ_pos p'))
  | cons c t' ih =>
      cases p with
      | zero =>
          rw [List.drop_zero] at hm
          rw [listFind_cons_eq, if_pos hm]
      | succ p' =>
          have h0 : ¬ headMatch pat (c :: t') = true := by
            have := hmin 0 (Nat.succ_pos p')
            rw [List.drop_zero] at this
            exact this
          rw [listFind_cons_eq, if_neg h0]
          rw [ih p' hm (fun q hq => hmin (q + 1) (Nat.succ_lt_succ hq))]
          rfl

theorem listFind_append_some (t s pat : List Char) (p : Nat)
    (hpat : pat ≠ []) (h : listFind t pat = some p) :
    listFind (t ++ s) pat = some p := by
  obtain ⟨hm, hmin⟩ := listFind_some t pat p h
  have hple : p ≤ t.length := by
    by_contra hp
    push_neg at hp
    rw [List.drop_eq_nil_of_le (le_of_lt hp)] at hm
    have := headMatch_length pat [] hm
    simp only [List.length_nil, Nat.le_zero] at this
    exact hpat (List.length_eq_zero.mp this)
  have hfit : p + pat.length ≤ t.length := by
    have h1 := headMatch_length pat (t.drop p) hm
    rw [List.length_drop] at h1
    omega
  apply listFind_mk
  · have hdrop : (t ++ s).drop p = t.drop p ++ s := by
      rw [List.drop_append_eq_append_drop]
      have hz : p - t.length = 0 := by omega
      rw [hz, List.drop_zero]
    rw [hdrop]
    exact headMatch_append pat (t.drop p) s hm
  · intro q hq hmq
    have hdrop : (t ++ s).drop q = t.drop q ++ s := by
      rw [List.drop_append_eq_append_drop]
      have hz : q - t.length = 0 := by omega
      rw [hz, List.drop_zero]
    rw [hdrop] at hmq
    have : headMatch pat (t.drop q) = true :=
      headMatch_prefix_trim pat (t.drop q) s hmq
        (by rw [List.length_drop]; omega)
    exact hmin q hq this

theorem lookupOrInsert_extends (t n : List Char) :
    ∃ s, (lookupOrInsert t n).2 = t ++ s := by
  unfold lookupOrInsert
  cases hf : listFind t (n ++ [nulChar]) with
  | none => exact ⟨n ++ [nulChar], by rw [List.append_assoc]⟩
  | some p => exact ⟨[], by rw [List.append_nil]⟩

theorem tableAfter_cons (t : List Char) (n : List Char)
    (ns : List (List Char)) :
    tableAfter t (n :: ns) = tableAfter (lookupOrInsert t n).2 ns := rfl

theorem tableAfter_append (t : List Char) (a b : List (List Char)) :
    tableAfter t (a ++ b) = tableAfter (tableAfter t a) b :=
  List.foldl_append _ _ _ _

theorem tableAfter_extends (t : List Char) (names : List (List Char)) :
    ∃ s, tableAfter t names = t ++ s := by
  induction names generalizing t with
  | nil => exact ⟨[], by rw [List.append_nil]; rfl⟩
  | cons n ns ih =>
      rw [tableAfter_cons]
      obtain ⟨s1, hs1⟩ := lookupOrInsert_extends t n
      obtain ⟨s2, hs2⟩ := ih (lookupOrInsert t n).2
      exact ⟨s1 ++ s2, by rw [hs2, hs1, List.append_assoc]⟩

theorem tableWF_lookupOrInsert (t n : List Char) (h : tableWF t) :
    tableWF (lookupOrInsert t n).2 := by
  unfold lookupOrInsert
  cases hf : listFind t (n ++ [nulChar]) with
  | none =>
      right
      rw [List.getLast?_append_of_ne_nil]
      · rfl
      · intro he; cases he
  | some p => exact h

theorem tableWF_tableAfter (t : List Char) (names : List (List Char))
    (h : tableWF t) : tableWF (tableAfter t names) := by
  induction names generalizing t with
  | nil => exact h
  | cons n ns ih =>
      rw [tableAfter_cons]
      exact ih _ (tableWF_lookupOrInsert t n h)

theorem listFind_tableAfter (t : List Char) (names : List (List Char))
    (pat : List Char) (p : Nat) (hpat : pat ≠ [])
    (h : listFind t pat = some p) :
    listFind (tableAfter t names) pat = some p := by
  obtain ⟨s, hs⟩ := tableAfter_extends t names
  rw [hs]
  exact listFind_append_some t s pat p hpat h

/-- After a lookup-or-insert of a NUL-free name into a well-formed table,
    the name's entry is present at exactly the returned offset. -/
theorem lookupOrInsert_found (t n : List Char) (hwf : tableWF t)
    (hnul : nulChar ∉ n) :
    listFind (lookupOrInsert t n).2 (n ++ [nulChar]) =
      some (lookupOrInsert t n).1 := by
  unfold lookupOrInsert
  cases hf : listFind t (n ++ [nulChar]) with
  | some p => exact hf
  | none =>
      simp only
      apply listFind_mk
      · rw [List.append_assoc, List.drop_left]
        exact headMatch_self _
      · intro q hq hmq
        rw [List.append_assoc] at hmq
        have hdrop : (t ++ (n ++ [nulChar])).drop q =
            t.drop q ++ (n ++ [nulChar]) := by
          rw [List.drop_append_eq_append_drop]
          have hz : q - t.length = 0 := by omega
          rw [hz, List.drop_zero]
        rw [hdrop] at hmq
        by_cases hcase : q + (n ++ [nulChar]).length ≤ t.length
        · have : headMatch (n ++ [nulChar]) (t.drop q) = true :=
            headMatch_prefix_trim _ _ _ hmq
              (by rw [List.length_drop]; omega)
          exact ((listFind_none_iff t (n ++ [nulChar])).mp hf) q this
        · push_neg at hcase
          have hAlen : (t.drop q).length = t.length - q := List.length_drop q t
          have hApos : 0 < (t.drop q).length := by omega
          have hplen : (n ++ [nulChar]).length = n.length + 1 := by simp
          have hAlt : (t.drop q).length < (n ++ [nulChar]).length := by omega
          have hget := headMatch_get (n ++ [nulChar])
            (t.drop q ++ (n ++ [nulChar])) hmq ((t.drop q).length - 1)
            (by omega)
          have hleft : (t.drop q ++ (n ++ [nulChar])).get?
              ((t.drop q).length - 1) = (t.drop q).get? ((t.drop q).length - 1) :=
            List.get?_append (by omega)
          have hAq : (t.drop q).get? ((t.drop q).length - 1) =
              t.get? (t.length - 1) := by
            rw [List.get?_drop]
            congr 1
            omega
          have hlast : t.get? (t.length - 1) = some nulChar := by
            cases hwf with
            | inl he =>
                exfalso
                rw [he] at hq
                simp at hq
            | inr hl => rw [← List.getLast?_eq_get?]; exact hl
          have hpatk : (n ++ [nulChar]).get? ((t.drop q).length - 1) =
              some nulChar := by
            rw [← hget, hleft, hAq, hlast]
          have hkn : (t.drop q).length - 1 < n.length := by omega
          rw [List.get?_append hkn] at hpatk
          exact hnul (List.get?_mem hpatk)

/-- Deduplication at the level of the threaded lookup-or-insert walk: two
    steps bearing the same NUL-free name produce the same offset, and the
    later step does not grow the table. -/
theorem walk_dedup (W : List (List Char)) (t : List Char) (i j : Nat)
    (hwf : tableWF t) (hn : ∀ s ∈ W, nulChar ∉ s)
    (hij : i < j) (hj : j < W.length)
    (heq : W.getD i [] = W.getD j []) :
    offsetAt t W i = offsetAt t W j ∧
    tableAfter t (W.take (j + 1)) = tableAfter t (W.take j) := by
  have hi : i < W.length := Nat.lt_trans hij hj
  have hWi : W.get? i = some (W.getD i []) := by
    cases hg : W.get? i with
    | none =>
        rw [List.get?_eq_none] at hg
        omega
    | some a =>
        rw [List.getD_eq_get?, hg]
        rfl
  have hWj : W.get? j = some (W.getD j []) := by
    cases hg : W.get? j with
    | none =>
        rw [List.get?_eq_none] at hg
        omega
    | some a =>
        rw [List.getD_eq_get?, hg]
        rfl
  have hnul : nulChar ∉ W.getD i [] := hn _ (List.get?_mem hWi)
  have hwfTi : tableWF (tableAfter t (W.take i)) := tableWF_tableAfter _ _ hwf
  have hkey : listFind (lookupOrInsert (tableAfter t (W.take i))
      (W.getD i [])).2 (W.getD i [] ++ [nulChar]) =
      some (offsetAt t W i) :=
    lookupOrInsert_found _ _ hwfTi hnul
  have htake_i : W.take (i + 1) = W.take i ++ [W.getD i []] := by
    rw [List.take_succ]
    congr 1
    rw [← List.get?_eq_getElem?, hWi]
    rfl
  have hT1 : tableAfter t (W.take (i + 1)) =
      (lookupOrInsert (tableAfter t (W.take i)) (W.getD i [])).2 := by
    rw [htake_i, tableAfter_append]
    rfl
  have htake_j : W.take j = W.take (i + 1) ++
      (W.drop (i + 1)).take (j - (i + 1)) := by
    have h2 := List.take_add W (i + 1) (j - (i + 1))
    rw [show (i + 1) + (j - (i + 1)) = j by omega] at h2
    exact h2
  have hTj : listFind (tableAfter t (W.take j))
      (W.getD i [] ++ [nulChar]) = some (offsetAt t W i) := by
    rw [htake_j, tableAfter_append, hT1]
    exact listFind_tableAfter _ _ _ _ (by simp) hkey
  have hstep_j : lookupOrInsert (tableAfter t (W.take j)) (W.getD j []) =
      (offsetAt t W i, tableAfter t (W.take j)) := by
    unfold lookupOrInsert
    rw [← heq, hTj]
  constructor
  · show offsetAt t W i =
      (lookupOrInsert (tableAfter t (W.take j)) (W.getD j [])).1
    rw [hstep_j]
  · have htake_j1 : W.take (j + 1) = W.take j ++ [W.getD j []] := by
      rw [List.take_succ]
      congr 1
      rw [← List.get?_eq_getElem?, hWj]
      rfl
    rw [htake_j1, tableAfter_append]
    show (lookupOrInsert (tableAfter t (W.take j)) (W.getD j [])).2 =
      tableAfter t (W.take j)
    rw [hstep_j]

theorem propToDtb_strings (p : PropObj) (t : List Char) (pos version : Nat) :
    (propToDtb p t pos version).2.1 = (lookupOrInsert t p.name.toList).2 := by
  unfold propToDtb
  cases p.cls <;>
    simp [propertyToDtb, propStringsToDtb, propWordsToDtb, propBytesToDtb]

theorem propsToDtb_strings (ps : List PropObj) (t : List Char)
    (pos version : Nat) :
    (propsToDtb ps t pos version).2.1 =
      tableAfter t (ps.map (fun p => p.name.toList)) := by
  induction ps generalizing t pos with
  | nil => rfl
  | cons p rest ih =>
      unfold propsToDtb
      simp only
      rw [ih, propToDtb_strings, List.map_cons, tableAfter_cons]

mutual

theorem nodeToDtb_strings (nd : Node) (t : List Char) (pos version : Nat) :
    (nodeToDtb nd t pos version).2.1 = tableAfter t nd.walkNames := by
  cases nd with
  | mk name pch props nodes =>
      rw [nodeToDtb]
      simp only
      rw [nodesToDtb_strings, propsToDtb_strings, Node.walkNames,
        tableAfter_append]

theorem nodesToDtb_strings (ns : List Node) (t : List Char)
    (pos version : Nat) :
    (nodesToDtb ns t pos version).2.1 = tableAfter t (nodesWalkNames ns) := by
  cases ns with
  | nil => rfl
  | cons c rest =>
      rw [nodesToDtb]
      simp only
      rw [nodesToDtb_strings rest, nodeToDtb_strings c, nodesWalkNames,
        tableAfter_append]

end

/-- C7: in one binary-emission tree walk threading a single well-formed
    string table, two properties at walk positions i and j carrying the same
    name are assigned the same string-table offset, and the later of the two
    does not insert anything (the table is unchanged by its step); the
    table the walk threads is exactly the table of the lookup-or-insert
    fold over the walk's property names. -/
theorem c7_string_table_dedup (nd : Node) (t : List Char)
    (pos version i j : Nat) (hwf : tableWF t)
    (hn : ∀ s ∈ nd.walkNames, nulChar ∉ s)
    (hij : i < j) (hj : j < nd.walkNames.length)
    (heq : nd.walkNames.getD i [] = nd.walkNames.getD j []) :
    offsetAt t nd.walkNames i = offsetAt t nd.walkNames j ∧
    tableAfter t (nd.walkNames.take (j + 1)) =
      tableAfter t (nd.walkNames.take j) ∧
    (nodeToDtb nd t pos version).2.1 = tableAfter t nd.walkNames := by
  obtain ⟨h1, h2⟩ := walk_dedup nd.walkNames t i j hwf hn hij hj heq
  exact ⟨h1, h2, nodeToDtb_strings nd t pos version⟩

theorem c7_string_table_dedup_witness :
    tableWF ([] : List Char) ∧
    (∀ s ∈ (Node.mk "/" [] [{ name := "reg", cls := PClass.words,
                              wordSize := 32, data := PData.wrds [1],
                              pchain := [] }]
              [Node.mk "c" ["/"] [{ name := "reg", cls := PClass.words,
                                    wordSize := 32, data := PData.wrds [2],
                                    pchain := ["c", "/"] }] []]).walkNames,
       nulChar ∉ s) ∧
    (offsetAt [] (Node.mk "/" [] [{ name := "reg", cls := PClass.words,
                                    wordSize := 32, data := PData.wrds [1],
                                    pchain := [] }]
        [Node.mk "c" ["/"] [{ name := "reg", cls := PClass.words,
                              wordSize := 32, data := PData.wrds [2],
                              pchain := ["c", "/"] }] []]).walkNames 0 =
       offsetAt [] (Node.mk "/" [] [{ name := "reg", cls := PClass.words,
                                      wordSize := 32, data := PData.wrds [1],
                                      pchain := [] }]
          [Node.mk "c" ["/"] [{ name := "reg", cls := PClass.words,
                                wordSize := 32, data := PData.wrds [2],
                                pchain := ["c", "/"] }] []]).walkNames 1 ∧
     tableAfter [] ((Node.mk "/" [] [{ name := "reg", cls := PClass.words,
                                       wordSize := 32, data := PData.wrds [1],
                                       pchain := [] }]
        [Node.mk "c" ["/"] [{ name := "reg", cls := PClass.words,
                              wordSize := 32, data := PData.wrds [2],
                              pchain := ["c", "/"] }] []]).walkNames.take 2) =
       tableAfter [] ((Node.mk "/" [] [{ name := "reg", cls := PClass.words,
                                         wordSize := 32, data := PData.wrds [1],
                                         pchain := [] }]
          [Node.mk "c" ["/"] [{ name := "reg", cls := PClass.words,
                                wordSize := 32, data := PData.wrds [2],
                                pchain := ["c", "/"] }] []]).walkNames.take 1) ∧
     (nodeToDtb (Node.mk "/" [] [{ name := "reg", cls := PClass.words,
                                   wordSize := 32, data := PData.wrds [1],
                                   pchain := [] }]
          [Node.mk "c" ["/"] [{ name := "reg", cls := PClass.words,
                                wordSize := 32, data := PData.wrds [2],
                                pchain := ["c", "/"] }] []]) [] 0 17).2.1 =
       tableAfter [] (Node.mk "/" [] [{ name := "reg", cls := PClass.words,
                                        wordSize := 32, data := PData.wrds [1],
                                        pchain := [] }]
          [Node.mk "c" ["/"] [{ name := "reg", cls := PClass.words,
                                wordSize := 32, data := PData.wrds [2],
                                pchain := ["c", "/"] }] []]).walkNames) :=
  ⟨Or.inl rfl, by decide,
   c7_string_table_dedup _ [] 0 17 0 1 (Or.inl rfl) (by decide) (by decide)
     (by decide) (by decide)⟩

end Fdt
